import Mathlib

/-!
Verification of the eatmymail Maildir deduplicator (src/eatmymail.py).

The Python program is shallowly embedded below:

* `sha256hex` models `hashlib.sha256(s.encode()).hexdigest()` (SHA-256 over the
  UTF-8 bytes of a string, rendered as 64 lowercase hex characters).
* `hash_content` models the recursive `hash_content` function.  Note that for a
  multipart message the source computes `hashes[0].join("")`, i.e. it joins the
  characters of the empty string using the first child digest as separator,
  which is always the empty string; `strJoin` models Python's `str.join` on a
  string argument.  Indexing `hashes[0]` on an empty list raises `IndexError`,
  so `hash_content` is `Option`-valued.
* Python dicts are modelled as insertion-ordered association lists
  (`dictAppend` for the `append-or-create` idiom used for `messages` and
  `dupes`, `dictSet` for plain `d[k] = v` assignment used for `to_remove`).
* `remove`, `pruneFolder` and `prune` model the `remove` and `prune`
  functions.  The shared `Counter` (four `multiprocessing.Value` cells updated
  under a lock) is threaded as explicit state; a raised Python exception is
  modelled as `none`.  `mailbox.Maildir.list_folders()` returns folder *names*
  (strings), so the recursive calls `prune(subdir, ...)` / `validate(subdir, ...)`
  invoke `.iteritems()` on a `str` and raise `AttributeError`: any folder with a
  declared sub-folder makes the pass fail, which the model reflects by
  returning `none` when `folderNames` is non-empty.
* `validate` models the `validate` function; findings that the source prints
  are collected in a list.  `os.path.join(path, name)` is modelled as
  `path ++ "/" ++ name` (the POSIX case with a relative second component).
* `pyInt` models `int(s)` on optionally signed decimal strings (Python also
  accepts other whitespace and underscore separators; those inputs do not occur
  in the facts proved here).  The four `multiprocessing.Value("i", ...)` cells
  are ctypes `c_int`s: storing into them silently wraps at 32 bits, so every
  counter update stores `wrap32 (old + delta)`, the two's-complement reduction
  of the unbounded sum into `[-2^31, 2^31)`.
-/

set_option maxRecDepth 16384

namespace EatMyMail

/-! ### SHA-256 (models `hashlib.sha256(...).hexdigest()`) -/

def M32 : Nat := 4294967296

/-- Right-rotation of a 32-bit word held in a `Nat`. -/
def rotr32 (n x : Nat) : Nat := ((x >>> n) ||| (x <<< (32 - n))) % M32

/-- The choose function of the compression round. -/
def chooseBits (x y z : Nat) : Nat := (x &&& y) ^^^ ((x ^^^ 4294967295) &&& z)

/-- The majority function of the compression round. -/
def majorityBits (x y z : Nat) : Nat := (x &&& y) ^^^ (x &&& z) ^^^ (y &&& z)

def bigSigma0 (x : Nat) : Nat := rotr32 2 x ^^^ rotr32 13 x ^^^ rotr32 22 x

def bigSigma1 (x : Nat) : Nat := rotr32 6 x ^^^ rotr32 11 x ^^^ rotr32 25 x

def smallSigma0 (x : Nat) : Nat := rotr32 7 x ^^^ rotr32 18 x ^^^ (x >>> 3)

def smallSigma1 (x : Nat) : Nat := rotr32 17 x ^^^ rotr32 19 x ^^^ (x >>> 10)

/-- The 64 SHA-256 round constants, written in decimal. -/
def sha256k : List Nat :=
  [1116352408, 1899447441, 3049323471, 3921009573, 961987163, 1508970993,
   2453635748, 2870763221, 3624381080, 310598401, 607225278, 1426881987,
   1925078388, 2162078206, 2614888103, 3248222580, 3835390401, 4022224774,
   264347078, 604807628, 770255983, 1249150122, 1555081692, 1996064986,
   2554220882, 2821834349, 2952996808, 3210313671, 3336571891, 3584528711,
   113926993, 338241895, 666307205, 773529912, 1294757372, 1396182291,
   1695183700, 1986661051, 2177026350, 2456956037, 2730485921, 2820302411,
   3259730800, 3345764771, 3516065817, 3600352804, 4094571909, 275423344,
   430227734, 506948616, 659060556, 883997877, 958139571, 1322822218,
   1537002063, 1747873779, 1955562222, 2024104815, 2227730452, 2361852424,
   2428436474, 2756734187, 3204031479, 3329325298]

/-- The eight SHA-256 initial hash words, written in decimal. -/
def sha256init : List Nat :=
  [1779033703, 3144134277, 1013904242, 2773480762,
   1359893119, 2600822924, 528734635, 1541459225]

structure Hs where
  a : Nat
  b : Nat
  c : Nat
  d : Nat
  e : Nat
  f : Nat
  g : Nat
  h : Nat

def extendW : Nat → List Nat → List Nat
  | 0, w => w
  | n + 1, w =>
    let len := w.length
    extendW n (w ++ [(smallSigma1 (w.getD (len - 2) 0) + w.getD (len - 7) 0 +
                      smallSigma0 (w.getD (len - 15) 0) + w.getD (len - 16) 0) % M32])

def sha256round (st : Hs) (kw : Nat × Nat) : Hs :=
  let t1 := (st.h + bigSigma1 st.e + chooseBits st.e st.f st.g + kw.1 + kw.2) % M32
  let t2 := (bigSigma0 st.a + majorityBits st.a st.b st.c) % M32
  ⟨(t1 + t2) % M32, st.a, st.b, st.c, (st.d + t1) % M32, st.e, st.f, st.g⟩

def bytesToWords : List Nat → List Nat
  | b0 :: b1 :: b2 :: b3 :: rest => (((b0 * 256 + b1) * 256 + b2) * 256 + b3) :: bytesToWords rest
  | _ => []

def compress (hs : List Nat) (block : List Nat) : List Nat :=
  let w := extendW 48 (bytesToWords block)
  let st0 : Hs := ⟨hs.getD 0 0, hs.getD 1 0, hs.getD 2 0, hs.getD 3 0,
                   hs.getD 4 0, hs.getD 5 0, hs.getD 6 0, hs.getD 7 0⟩
  let st := (sha256k.zip w).foldl sha256round st0
  [(hs.getD 0 0 + st.a) % M32, (hs.getD 1 0 + st.b) % M32, (hs.getD 2 0 + st.c) % M32,
   (hs.getD 3 0 + st.d) % M32, (hs.getD 4 0 + st.e) % M32, (hs.getD 5 0 + st.f) % M32,
   (hs.getD 6 0 + st.g) % M32, (hs.getD 7 0 + st.h) % M32]

def processBlocks : Nat → List Nat → List Nat → List Nat
  | 0, hs, _ => hs
  | fuel + 1, hs, bytes => processBlocks fuel (compress hs (bytes.take 64)) (bytes.drop 64)

def lenBytes (n : Nat) : List Nat :=
  [(n >>> 56) % 256, (n >>> 48) % 256, (n >>> 40) % 256, (n >>> 32) % 256,
   (n >>> 24) % 256, (n >>> 16) % 256, (n >>> 8) % 256, n % 256]

def padBytes (msg : List Nat) : List Nat :=
  let len := msg.length
  let z := (64 - ((len + 9) % 64)) % 64
  msg ++ 128 :: List.replicate z 0 ++ lenBytes (8 * len)

def utf8Bytes (c : Char) : List Nat :=
  let n := c.toNat
  if n < 128 then [n]
  else if n < 2048 then [192 ||| (n >>> 6), 128 ||| (n &&& 63)]
  else if n < 65536 then [224 ||| (n >>> 12), 128 ||| ((n >>> 6) &&& 63), 128 ||| (n &&& 63)]
  else [240 ||| (n >>> 18), 128 ||| ((n >>> 12) &&& 63), 128 ||| ((n >>> 6) &&& 63), 128 ||| (n &&& 63)]

def strBytes (s : String) : List Nat := (s.data.map utf8Bytes).flatten

def hexDigit (n : Nat) : Char := if n < 10 then Char.ofNat (48 + n) else Char.ofNat (87 + n)

def wordHex (n : Nat) : String :=
  String.mk [hexDigit ((n >>> 28) % 16), hexDigit ((n >>> 24) % 16), hexDigit ((n >>> 20) % 16),
             hexDigit ((n >>> 16) % 16), hexDigit ((n >>> 12) % 16), hexDigit ((n >>> 8) % 16),
             hexDigit ((n >>> 4) % 16), hexDigit (n % 16)]

def sha256hex (s : String) : String :=
  let bytes := padBytes (strBytes s)
  String.join ((processBlocks (bytes.length / 64) sha256init bytes).map wordHex)

/-- Sanity check against the FIPS 180 test vector for the empty message. -/
theorem sha256hex_empty_vector :
    sha256hex "" = "e3b0c44298fc1c149afbf4c8996fb92427ae41e4649b934ca495991b7852b855" := by
  decide

/-- Sanity check against the FIPS 180 test vector for "abc". -/
theorem sha256hex_abc_vector :
    sha256hex "abc" = "ba7816bf8f01cfea414140de5dae2223b00361a396177a9cb410ff61f20015ad" := by
  decide

/-! ### Python helpers -/

/-- Python's `sep.join(s)` for a *string* argument `s`: the characters of `s`
interleaved with `sep`.  In the source this is only reached as
`hashes[0].join("")`, which is always `""`. -/
def strJoin (sep : String) (s : String) : String :=
  String.intercalate sep (s.data.map (fun c => String.mk [c]))

/-- Python's `int(s)` on an optionally signed decimal literal; `none` models a
raised `ValueError`. -/
def pyInt (s : String) : Option Int :=
  let cs := (s.data.dropWhile (fun c => c == ' ')).reverse.dropWhile (fun c => c == ' ') |>.reverse
  let digitsVal : List Char → Option Int := fun ds =>
    if ds ≠ [] && ds.all Char.isDigit then
      some (Int.ofNat (ds.foldl (fun n c => n * 10 + (c.toNat - 48)) 0))
    else none
  match cs with
  | '-' :: ds => (digitsVal ds).map (fun n => -n)
  | '+' :: ds => digitsVal ds
  | ds => digitsVal ds

/-! ### Data model -/

/-- The body of a message: either a single textual payload (`get_payload()` on a
non-multipart message, coerced by `str(...)`), or an ordered list of child
bodies (`get_payload()` on a multipart message). -/
inductive MessageBody where
  | leaf : String → MessageBody
  | multipart : List MessageBody → MessageBody

/-- The headers and body of one stored message.  Header lookup in the Python
`email.message.Message` API returns `None` for an absent header, hence the
`Option` fields: `messageId` is `message["Message-Id"]`, `sender` is the
`From` header, `contentLength` is `message["Content-Length"]`, and `defects`
models `message.defects` (by defect type name). -/
structure MailMessage where
  messageId : Option String
  subject : Option String
  contentLength : Option String
  date : Option String
  sender : Option String
  body : MessageBody
  defects : List String

/-- One entry of a Maildir: the store key, the on-disk file name
(`mbox._toc[key]`), and the parsed message. -/
structure MailEntry where
  key : String
  file : String
  msg : MailMessage

/-- A Maildir folder: `items` is the stable iteration sequence of
`mbox.iteritems()` (driven by `_toc`, so keys and file names come in pairs),
and `folderNames` is what `mbox.list_folders()` returns — the *names* of the
declared sub-folders. -/
structure Maildir where
  items : List MailEntry
  folderNames : List String

/-- The shared statistics object (`Counter`): four `Value("i")` cells (ctypes
`c_int`, i.e. wrapping 32-bit signed integers) updated under a lock.  The
lock-protected updates are modelled as atomic state updates; each stored value
is the 32-bit wrap of the unbounded sum. -/
structure Counter where
  del_messages : Int
  del_bytes : Int
  messages : Int
  mboxes : Int

/-- Storing an integer into a ctypes `c_int` cell: two's-complement wrap into
the signed 32-bit range `[-2^31, 2^31)`. -/
def wrap32 (n : Int) : Int := (n + 2147483648) % 4294967296 - 2147483648

def Counter.add_deleted (c : Counter) (dm db : Int) : Counter :=
  { c with del_messages := wrap32 (c.del_messages + dm),
           del_bytes := wrap32 (c.del_bytes + db) }

def Counter.add_messages (c : Counter) (n : Int) : Counter :=
  { c with messages := wrap32 (c.messages + n) }

def Counter.add_mboxes (c : Counter) (n : Int) : Counter :=
  { c with mboxes := wrap32 (c.mboxes + n) }

/-! ### hash_content -/

mutual
/-- Model of `hash_content(message)`.  For a multipart message the source digests every
child, then returns `sha256(hashes[0].join("").encode()).hexdigest()`;
`hashes[0]` on a message with no parts raises `IndexError` (`none`). -/
def hash_content : MessageBody → Option String
  | .leaf content => some (sha256hex content)
  | .multipart parts =>
    match hash_children parts with
    | none => none
    | some [] => none
    | some (h0 :: _) => some (sha256hex (strJoin h0 ""))

/-- The `for payload in message.get_payload(): hashes.append(hash_content(payload))`
loop of `hash_content`. -/
def hash_children : List MessageBody → Option (List String)
  | [] => some []
  | m :: ms =>
    match hash_content m, hash_children ms with
    | some h, some hs => some (h :: hs)
    | _, _ => none
end

/-! ### Insertion-ordered dictionaries (Python `dict`) -/

/-- Dictionary lookup `d[k]` on an insertion-ordered association list. -/
def alookup {α : Type} (k : String) : List (String × α) → Option α
  | [] => none
  | (k', v) :: rest => if k' = k then some v else alookup k rest

/-- The `if k in d: d[k].append(v) else: d[k] = [v]` idiom: append `v` to the
entry of `k`, creating the entry at the end in insertion order if absent. -/
def dictAppend (d : List (String × List String)) (k v : String) : List (String × List String) :=
  match d with
  | [] => [(k, [v])]
  | (k', vs) :: rest => if k' = k then (k', vs ++ [v]) :: rest else (k', vs) :: dictAppend rest k v

/-- Plain dictionary assignment `d[k] = v`: update the entry in place, or append
it at the end in insertion order. -/
def dictSet (d : List (String × String)) (k v : String) : List (String × String) :=
  match d with
  | [] => [(k, v)]
  | (k', v') :: rest => if k' = k then (k', v) :: rest else (k', v') :: dictSet rest k v

/-! ### The duplicate resolver (`prune`, lines 131-177) -/

/-- Model of `mbox.get(key)`: the message stored under `key`, or `None` when
the key is absent. -/
def entryLookup : List MailEntry → String → Option MailMessage
  | [], _ => none
  | e :: rest, k => if e.key = k then some e.msg else entryLookup rest k

/-- The `messages` dictionary built by the first loop of `prune`: message id →
keys bearing it, in iteration order.  (`bgAux` exposes the fold accumulator.)
The `except TypeError` guard of the source is dead here because modelled
identifiers are strings, hence always hashable. -/
def bgAux (acc : List (String × List String)) : List MailEntry → List (String × List String)
  | [] => acc
  | e :: rest =>
    match e.msg.messageId with
    | none => bgAux acc rest
    | some mid => bgAux (dictAppend acc mid e.key) rest

def buildGroups (items : List MailEntry) : List (String × List String) :=
  bgAux [] items

/-- The hash computed for `key` inside the `dupes` loop: `"-"` in fast mode,
otherwise `hash_content(mbox.get(key))` (`None.is_multipart()` raises, hence
`none` when the key is absent). -/
def hashKey (items : List MailEntry) (fast : Bool) (k : String) : Option String :=
  if fast then some "-"
  else
    match entryLookup items k with
    | none => none
    | some m => hash_content m.body

/-- The `dupes` dictionary built for one identifier group: content hash → keys
producing it, in group order. -/
def buildDupes (items : List MailEntry) (fast : Bool) :
    List String → List (String × List String) → Option (List (String × List String))
  | [], d => some d
  | k :: rest, d =>
    match hashKey items fast k with
    | none => none
    | some h => buildDupes items fast rest (dictAppend d h k)

/-- The `for key in dupes[hashsum][1:]: to_remove[key] = hashsum` inner loop. -/
def writeAll (ks : List String) (h : String) (acc : List (String × String)) :
    List (String × String) :=
  ks.foldl (fun a k => dictSet a k h) acc

/-- The `for hashsum in dupes:` loop: mark every key after the first of each
content group, annotated with the group's hash. -/
def markDupes (dupes : List (String × List String)) (acc : List (String × String)) :
    List (String × String) :=
  dupes.foldl (fun a p => if 1 < p.2.length then writeAll p.2.tail p.1 a else a) acc

/-- The `for message_id in messages:` loop: build and process the content
groups of every identifier group with more than one member. -/
def decideGroups (items : List MailEntry) (fast : Bool) :
    List (String × List String) → List (String × String) → Option (List (String × String))
  | [], acc => some acc
  | (_, ks) :: rest, acc =>
    if 1 < ks.length then
      match buildDupes items fast ks [] with
      | none => none
      | some dupes => decideGroups items fast rest (markDupes dupes acc)
    else decideGroups items fast rest acc

/-- The complete removal decision (`to_remove`) computed by `prune` for one
folder, before `remove` is called. -/
def pruneDecision (items : List MailEntry) (fast : Bool) : Option (List (String × String)) :=
  decideGroups items fast (buildGroups items) []

/-! ### The pruning executor (`remove`, lines 98-128) -/

/-- Model of `remove(mbox, to_remove, counter, dry_run)`: for every decision entry, look
the message up, count one deleted message and `int(message["Content-Length"])`
bytes (0 when the header is absent), and delete the key unless `dry_run`.
`none` models a raised exception (absent key or unparsable length header);
lock/flush/unlock/close do not change the modelled state. -/
def remove : List (String × String) → List MailEntry → Counter → Bool →
    Option (Counter × List MailEntry)
  | [], items, c, _ => some (c, items)
  | (key, _) :: rest, items, c, dry =>
    match entryLookup items key with
    | none => none
    | some m =>
      match (match m.contentLength with
             | none => some (0 : Int)
             | some cl => pyInt cl) with
      | none => none
      | some db =>
        let c' := c.add_deleted 1 db
        let items' := if dry then items else items.eraseP (fun e => e.key == key)
        remove rest items' c' dry

/-- One folder-level pass of `prune` (lines 131-177 up to the sub-folder loop):
count the mailbox, build the identifier groups, count `len(messages)`, compute
the removal decision, and run `remove`. -/
def pruneFolder (items : List MailEntry) (fast dry : Bool) (c : Counter) :
    Option (Counter × List MailEntry) :=
  let c1 := c.add_mboxes 1
  let c2 := c1.add_messages (Int.ofNat (buildGroups items).length)
  match decideGroups items fast (buildGroups items) [] with
  | none => none
  | some to_remove => remove to_remove items c2 dry

/-- The full `prune` pass on one folder.  `list_folders()` yields folder
*names*; the recursive call `prune(subdir, counter, dry_run)` therefore hits
`'str' object has no attribute 'iteritems'` as soon as one sub-folder exists,
so the pass only completes on folders without declared sub-folders. -/
def prune (mbox : Maildir) (fast dry : Bool) (c : Counter) : Option (Counter × Maildir) :=
  match pruneFolder mbox.items fast dry c with
  | none => none
  | some (c', items') =>
    match mbox.folderNames with
    | [] => some (c', { mbox with items := items' })
    | _ :: _ => none

/-! ### The validation executor (`validate`, lines 184-216) -/

inductive Finding where
  | hard : String → String → Finding
  | soft : String → String → Finding
  | parse : String → String → Finding

def pathJoin (a b : String) : String := a ++ "/" ++ b

/-- The findings printed for one message: `Error` for each absent mandatory
header (`date`, `from`), `Warning` for each absent common header
(`message-id`, `subject`), `ParseWarning` for each recorded defect; each tagged
with `os.path.join(path, mbox._toc[key])`. -/
def findingsFor (path : String) (e : MailEntry) : List Finding :=
  (if e.msg.date.isSome then [] else [Finding.hard "date" (pathJoin path e.file)]) ++
  (if e.msg.sender.isSome then [] else [Finding.hard "from" (pathJoin path e.file)]) ++
  (if e.msg.messageId.isSome then [] else [Finding.soft "message-id" (pathJoin path e.file)]) ++
  (if e.msg.subject.isSome then [] else [Finding.soft "subject" (pathJoin path e.file)]) ++
  e.msg.defects.map (fun d => Finding.parse d (pathJoin path e.file))

/-- The per-message loop of `validate` over one folder. -/
def validateFolder (path : String) (items : List MailEntry) : List Finding :=
  (items.map (findingsFor path)).flatten

/-- The full `validate` pass on one folder; as with `prune`, the sub-folder
recursion calls `validate` on a folder *name* and raises `AttributeError`, so
the pass only completes on folders without declared sub-folders. -/
def validate (mbox : Maildir) (path : String) : Option (List Finding) :=
  match mbox.folderNames with
  | [] => some (validateFolder path mbox.items)
  | _ :: _ => none

def Finding.isHard : Finding → Bool
  | .hard _ _ => true
  | _ => false

def Finding.isSoft : Finding → Bool
  | .soft _ _ => true
  | _ => false

/-! ### Specification-side helper views -/

def keysOf {α : Type} (d : List (String × α)) : List String := d.map Prod.fst

/-- The keys of all messages carrying identifier `mid`, in folder iteration
order. -/
def idKeys (items : List MailEntry) (mid : String) : List String :=
  (items.filter (fun e => e.msg.messageId == some mid)).map MailEntry.key

/-- The keys of `ks` whose computed hash is `h`. -/
def dupFilter (items : List MailEntry) (fast : Bool) (ks : List String) (h : String) :
    List String :=
  ks.filter (fun k => hashKey items fast k == some h)

/-- The keys of all messages carrying identifier `mid` whose computed content
hash is `h`, in folder iteration order: the claims' "messages sharing an
identical identifier and an identical computed digest". -/
def dupList (items : List MailEntry) (fast : Bool) (mid h : String) : List String :=
  dupFilter items fast (idKeys items mid) h

/-- The bytes accounted for one decision key: the parsed `Content-Length` of
the message it refers to (0 if the key, the header, or a parse is missing). -/
def entryBytes (items : List MailEntry) (k : String) : Int :=
  match entryLookup items k with
  | none => (0 : Int)
  | some m =>
    match m.contentLength with
    | none => (0 : Int)
    | some cl => (pyInt cl).getD 0

/-- The bytes accounted for a decision list: per entry, the parsed
`Content-Length` of the message it refers to. -/
def declaredBytes (items : List MailEntry) (tr : List (String × String)) : Int :=
  (tr.map (fun p => entryBytes items p.1)).sum

/-! ### Association-list dictionary lemmas -/

theorem alookup_eq_none {α : Type} (k : String) (d : List (String × α)) :
    alookup k d = none ↔ k ∉ keysOf d := by
  induction d with
  | nil => simp [alookup, keysOf]
  | cons p rest ih =>
    obtain ⟨i, v⟩ := p
    by_cases hik : i = k
    · subst hik; simp [alookup, keysOf]
    · have hki : k ≠ i := fun h => hik h.symm
      simp [alookup, keysOf, hik, hki, ih]

theorem alookup_dictAppend (d : List (String × List String)) (k k' v : String) :
    alookup k (dictAppend d k' v) =
      if k' = k then some ((alookup k d).getD [] ++ [v]) else alookup k d := by
  induction d with
  | nil => by_cases h : k' = k <;> simp [dictAppend, alookup, h]
  | cons p rest ih =>
    obtain ⟨i, ks⟩ := p
    by_cases hik' : i = k'
    · subst hik'
      by_cases hk : i = k
      · subst hk; simp [dictAppend, alookup]
      · simp [dictAppend, alookup, hk]
    · simp only [dictAppend, if_neg hik']
      by_cases hk : i = k
      · have hk'k : ¬ k' = k := fun h => hik' (hk.trans h.symm)
        simp [alookup, hk, hk'k]
      · simp [alookup, hk, ih]

theorem alookup_dictSet (d : List (String × String)) (k v j : String) :
    alookup j (dictSet d k v) = if k = j then some v else alookup j d := by
  induction d with
  | nil => by_cases h : k = j <;> simp [dictSet, alookup, h]
  | cons p rest ih =>
    obtain ⟨i, w⟩ := p
    by_cases hik : i = k
    · subst hik
      by_cases hj : i = j
      · subst hj; simp [dictSet, alookup]
      · simp [dictSet, alookup, hj]
    · simp only [dictSet, if_neg hik]
      by_cases hj : i = j
      · have hkj : ¬ k = j := fun h => hik (h.symm ▸ hj)
        simp [alookup, hj, hkj]
      · simp [alookup, hj, ih]

theorem keysOf_dictAppend (d : List (String × List String)) (k v : String) :
    keysOf (dictAppend d k v) =
      if alookup k d = none then keysOf d ++ [k] else keysOf d := by
  induction d with
  | nil => simp [dictAppend, alookup, keysOf]
  | cons p rest ih =>
    obtain ⟨i, ks⟩ := p
    by_cases hik : i = k
    · subst hik; simp [dictAppend, alookup, keysOf]
    · have h1 : dictAppend ((i, ks) :: rest) k v = (i, ks) :: dictAppend rest k v := by
        simp [dictAppend, hik]
      have h2 : alookup k ((i, ks) :: rest) = alookup k rest := by
        simp [alookup, hik]
      rw [h1, h2]
      show i :: keysOf (dictAppend rest k v) = _
      rw [ih]
      split <;> simp [keysOf]

theorem keysOf_dictAppend_nodup (d : List (String × List String)) (k v : String)
    (hnd : (keysOf d).Nodup) : (keysOf (dictAppend d k v)).Nodup := by
  rw [keysOf_dictAppend]
  split
  · next hnone =>
    have hk : k ∉ keysOf d := (alookup_eq_none k d).mp hnone
    simpa [List.nodup_append] using ⟨hnd, hk⟩
  · exact hnd

theorem alookup_eq_some_of_mem {α : Type} (d : List (String × α)) (k : String) (v : α)
    (hnd : (keysOf d).Nodup) (hmem : (k, v) ∈ d) : alookup k d = some v := by
  induction d with
  | nil => cases hmem
  | cons p rest ih =>
    obtain ⟨i, w⟩ := p
    have hnd' : i ∉ List.map Prod.fst rest ∧ (keysOf rest).Nodup := by
      simpa [keysOf] using hnd
    rcases List.mem_cons.mp hmem with heq | hmem'
    · cases heq; simp [alookup]
    · have hik : i ≠ k := by
        intro hh
        exact hnd'.1 (hh ▸ List.mem_map_of_mem Prod.fst hmem')
      simp only [alookup, if_neg hik]
      exact ih hnd'.2 hmem'

theorem mem_of_alookup_eq_some {α : Type} {d : List (String × α)} {k : String} {v : α}
    (h : alookup k d = some v) : (k, v) ∈ d := by
  induction d with
  | nil => simp [alookup] at h
  | cons p rest ih =>
    obtain ⟨i, w⟩ := p
    by_cases hik : i = k
    · subst hik
      have hw : w = v := by simpa [alookup] using h
      rw [hw]
      exact List.mem_cons_self _ _
    · simp only [alookup, if_neg hik] at h
      exact List.mem_cons_of_mem _ (ih h)

theorem alookup_writeAll (ks : List String) (h k : String) (acc : List (String × String)) :
    alookup k (writeAll ks h acc) = if k ∈ ks then some h else alookup k acc := by
  induction ks generalizing acc with
  | nil => simp [writeAll]
  | cons x rest ih =>
    have hstep : writeAll (x :: rest) h acc = writeAll rest h (dictSet acc x h) := rfl
    rw [hstep, ih (dictSet acc x h)]
    by_cases hmem : k ∈ rest
    · simp [hmem]
    · by_cases hx : x = k
      · subst hx; simp [hmem, alookup_dictSet]
      · have hkx : k ≠ x := fun hh => hx hh.symm
        simp [hmem, hx, hkx, alookup_dictSet]

/-! ### Store-lookup lemmas -/

theorem entryLookup_eq_some_of_mem (items : List MailEntry) (e : MailEntry)
    (hnd : (items.map MailEntry.key).Nodup) (hmem : e ∈ items) :
    entryLookup items e.key = some e.msg := by
  induction items with
  | nil => cases hmem
  | cons e' rest ih =>
    have hnd' : e'.key ∉ List.map MailEntry.key rest ∧ (List.map MailEntry.key rest).Nodup := by
      simpa using hnd
    rcases List.mem_cons.mp hmem with heq | hmem'
    · rw [heq]; simp [entryLookup]
    · have hne : e'.key ≠ e.key := by
        intro h
        exact hnd'.1 (h ▸ List.mem_map_of_mem MailEntry.key hmem')
      simp only [entryLookup, if_neg hne]
      exact ih hnd'.2 hmem'

theorem mem_of_entryLookup_eq_some {items : List MailEntry} {k : String} {m : MailMessage}
    (h : entryLookup items k = some m) : ∃ e ∈ items, e.key = k ∧ e.msg = m := by
  induction items with
  | nil => simp [entryLookup] at h
  | cons e rest ih =>
    by_cases hk : e.key = k
    · simp only [entryLookup, if_pos hk, Option.some.injEq] at h
      exact ⟨e, List.mem_cons_self _ _, hk, h⟩
    · simp only [entryLookup, if_neg hk] at h
      obtain ⟨e', hmem, hkey, hmsg⟩ := ih h
      exact ⟨e', List.mem_cons_of_mem _ hmem, hkey, hmsg⟩

theorem mem_tail_of_sublist {α : Type} {l' l : List α} (hs : List.Sublist l' l) {k : α}
    (hk : k ∈ l'.tail) : k ∈ l.tail := by
  cases l with
  | nil =>
    rw [List.sublist_nil.mp hs] at hk
    simp at hk
  | cons x t =>
    cases hs with
    | cons _ h => exact h.subset (List.mem_of_mem_tail hk)
    | cons₂ _ h => exact h.subset hk

/-! ### Identifier-group lemmas -/

theorem idKeys_cons (e : MailEntry) (rest : List MailEntry) (mid : String) :
    idKeys (e :: rest) mid =
      if e.msg.messageId == some mid then e.key :: idKeys rest mid else idKeys rest mid := by
  simp only [idKeys, List.filter_cons]
  split <;> simp

theorem mem_idKeys {items : List MailEntry} {mid k : String} :
    k ∈ idKeys items mid ↔ ∃ e ∈ items, e.key = k ∧ e.msg.messageId = some mid := by
  constructor
  · intro hk
    simp only [idKeys, List.mem_map, List.mem_filter] at hk
    obtain ⟨e, ⟨hmem, hid⟩, hkey⟩ := hk
    exact ⟨e, hmem, hkey, by simpa [beq_iff_eq] using hid⟩
  · intro ⟨e, hmem, hkey, hid⟩
    simp only [idKeys, List.mem_map, List.mem_filter]
    exact ⟨e, ⟨hmem, by simp [hid]⟩, hkey⟩

theorem alookup_bgAux (items : List MailEntry) (acc : List (String × List String))
    (mid : String) :
    alookup mid (bgAux acc items) =
      if alookup mid acc = none ∧ idKeys items mid = [] then none
      else some ((alookup mid acc).getD [] ++ idKeys items mid) := by
  induction items generalizing acc with
  | nil =>
    cases hacc : alookup mid acc with
    | none => simp [bgAux, idKeys, hacc]
    | some ks => simp [bgAux, idKeys, hacc]
  | cons e rest ih =>
    cases hm : e.msg.messageId with
    | none =>
      have hb : (e.msg.messageId == some mid) = false := by rw [hm]; rfl
      simp only [bgAux, hm, idKeys_cons, hb, if_neg Bool.false_ne_true]
      exact ih acc
    | some mid' =>
      by_cases hm' : mid' = mid
      · subst hm'
        have hb : (e.msg.messageId == some mid') = true := by rw [hm]; simp
        have hstep : bgAux acc (e :: rest) = bgAux (dictAppend acc mid' e.key) rest := by
          simp [bgAux, hm]
        rw [hstep, ih (dictAppend acc mid' e.key), idKeys_cons]
        have hla : alookup mid' (dictAppend acc mid' e.key) =
            some ((alookup mid' acc).getD [] ++ [e.key]) := by
          rw [alookup_dictAppend, if_pos rfl]
        rw [hla, hb]
        simp
      · have hb : (e.msg.messageId == some mid) = false := by
          rw [hm]; simp [hm']
        have hstep : bgAux acc (e :: rest) = bgAux (dictAppend acc mid' e.key) rest := by
          simp [bgAux, hm]
        have hla : alookup mid (dictAppend acc mid' e.key) = alookup mid acc := by
          rw [alookup_dictAppend, if_neg hm']
        rw [hstep, ih (dictAppend acc mid' e.key), idKeys_cons, hla, hb]
        simp

theorem alookup_buildGroups (items : List MailEntry) (mid : String) :
    alookup mid (buildGroups items) =
      if idKeys items mid = [] then none else some (idKeys items mid) := by
  have h := alookup_bgAux items [] mid
  simpa [buildGroups, alookup] using h

theorem buildGroups_keys_nodup (items : List MailEntry) :
    (keysOf (buildGroups items)).Nodup := by
  have haux : ∀ (its : List MailEntry) (acc : List (String × List String)),
      (keysOf acc).Nodup → (keysOf (bgAux acc its)).Nodup := by
    intro its
    induction its with
    | nil => intro acc h; exact h
    | cons e rest ih =>
      intro acc h
      cases hm : e.msg.messageId with
      | none => simpa [bgAux, hm] using ih acc h
      | some mid =>
        have hstep : bgAux acc (e :: rest) = bgAux (dictAppend acc mid e.key) rest := by
          simp [bgAux, hm]
        rw [hstep]
        exact ih _ (keysOf_dictAppend_nodup _ _ _ h)
  exact haux items [] (by simp [keysOf])

theorem buildGroups_mem {items : List MailEntry} {mid : String} {ks : List String}
    (h : (mid, ks) ∈ buildGroups items) : ks = idKeys items mid := by
  have hl := alookup_eq_some_of_mem _ _ _ (buildGroups_keys_nodup items) h
  rw [alookup_buildGroups] at hl
  by_cases hnil : idKeys items mid = []
  · rw [if_pos hnil] at hl; cases hl
  · rw [if_neg hnil] at hl
    exact (Option.some.inj hl).symm

theorem buildGroups_keys_mem (items : List MailEntry) (mid : String) :
    mid ∈ keysOf (buildGroups items) ↔ idKeys items mid ≠ [] := by
  constructor
  · intro hmem hnil
    have hnone : alookup mid (buildGroups items) = none := by
      rw [alookup_buildGroups, if_pos hnil]
    exact ((alookup_eq_none _ _).mp hnone) hmem
  · intro hne
    by_contra hmem
    have hnone := (alookup_eq_none mid (buildGroups items)).mpr hmem
    rw [alookup_buildGroups, if_neg hne] at hnone
    cases hnone

/-! ### Content-group lemmas -/

theorem dupFilter_cons (items : List MailEntry) (fast : Bool) (k : String) (ks : List String)
    (h : String) :
    dupFilter items fast (k :: ks) h =
      if hashKey items fast k == some h then k :: dupFilter items fast ks h
      else dupFilter items fast ks h := by
  simp only [dupFilter, List.filter_cons]

theorem hashKey_of_mem_dupFilter {items : List MailEntry} {fast : Bool} {ks : List String}
    {h k : String} (hk : k ∈ dupFilter items fast ks h) :
    hashKey items fast k = some h ∧ k ∈ ks := by
  simp only [dupFilter, List.mem_filter] at hk
  exact ⟨by simpa [beq_iff_eq] using hk.2, hk.1⟩

theorem dupFilter_sublist (items : List MailEntry) (fast : Bool) (ks : List String)
    (h : String) : List.Sublist (dupFilter items fast ks h) ks :=
  List.filter_sublist ks

theorem alookup_buildDupes {items : List MailEntry} {fast : Bool} {ks : List String}
    {acc d : List (String × List String)} (h : String)
    (hbd : buildDupes items fast ks acc = some d) :
    alookup h d =
      if alookup h acc = none ∧ dupFilter items fast ks h = [] then none
      else some ((alookup h acc).getD [] ++ dupFilter items fast ks h) := by
  induction ks generalizing acc with
  | nil =>
    have hd : acc = d := by simpa [buildDupes] using hbd
    subst hd
    cases hacc : alookup h acc with
    | none => simp [dupFilter, hacc]
    | some vs => simp [dupFilter, hacc]
  | cons k rest ih =>
    cases hh : hashKey items fast k with
    | none => rw [buildDupes, hh] at hbd; cases hbd
    | some hk =>
      rw [buildDupes, hh] at hbd
      rw [ih hbd, dupFilter_cons]
      by_cases hkh : hk = h
      · subst hkh
        have hla : alookup hk (dictAppend acc hk k) =
            some ((alookup hk acc).getD [] ++ [k]) := by
          rw [alookup_dictAppend, if_pos rfl]
        have hb : (hashKey items fast k == some hk) = true := by rw [hh]; simp
        rw [hla, hb]
        simp
      · have hla : alookup h (dictAppend acc hk k) = alookup h acc := by
          rw [alookup_dictAppend, if_neg hkh]
        have hb : (hashKey items fast k == some h) = false := by
          rw [hh]; simp [hkh]
        rw [hla, hb]
        simp

theorem buildDupes_keys_nodup {items : List MailEntry} {fast : Bool} {ks : List String}
    {acc d : List (String × List String)} (hbd : buildDupes items fast ks acc = some d)
    (hnd : (keysOf acc).Nodup) : (keysOf d).Nodup := by
  induction ks generalizing acc with
  | nil =>
    have hd : acc = d := by simpa [buildDupes] using hbd
    subst hd; exact hnd
  | cons k rest ih =>
    cases hh : hashKey items fast k with
    | none => rw [buildDupes, hh] at hbd; cases hbd
    | some hk =>
      rw [buildDupes, hh] at hbd
      exact ih hbd (keysOf_dictAppend_nodup _ _ _ hnd)

theorem buildDupes_mem_eq {items : List MailEntry} {fast : Bool} {ks : List String}
    {d : List (String × List String)} {h : String} {ds : List String}
    (hbd : buildDupes items fast ks [] = some d) (hmem : (h, ds) ∈ d) :
    ds = dupFilter items fast ks h := by
  have hnd := buildDupes_keys_nodup hbd (by simp [keysOf])
  have hl := alookup_eq_some_of_mem _ _ _ hnd hmem
  rw [alookup_buildDupes h hbd] at hl
  by_cases hnil : dupFilter items fast ks h = []
  · rw [if_pos (by simp [alookup, hnil])] at hl; cases hl
  · rw [if_neg (by simp [alookup, hnil])] at hl
    simp only [alookup, Option.getD_none, List.nil_append, Option.some.injEq] at hl
    exact hl.symm

theorem buildDupes_total_of_fast (items : List MailEntry) (ks : List String)
    (acc : List (String × List String)) : ∃ d, buildDupes items true ks acc = some d := by
  induction ks generalizing acc with
  | nil => exact ⟨acc, rfl⟩
  | cons k rest ih =>
    have hh : hashKey items true k = some "-" := rfl
    rw [buildDupes, hh]
    exact ih _

/-! ### Mark-loop lemmas -/

theorem markDupes_cons (p : String × List String) (rest : List (String × List String))
    (acc : List (String × String)) :
    markDupes (p :: rest) acc =
      markDupes rest (if 1 < p.2.length then writeAll p.2.tail p.1 acc else acc) := rfl

theorem markDupes_frame (dupes : List (String × List String)) (acc : List (String × String))
    (k : String) (hk : ∀ p ∈ dupes, k ∉ p.2.tail) :
    alookup k (markDupes dupes acc) = alookup k acc := by
  induction dupes generalizing acc with
  | nil => rfl
  | cons p rest ih =>
    rw [markDupes_cons, ih _ (fun q hq => hk q (List.mem_cons_of_mem _ hq))]
    split
    · rw [alookup_writeAll, if_neg (hk p (List.mem_cons_self _ _))]
    · rfl

theorem markDupes_marked (dupes : List (String × List String)) (acc : List (String × String))
    (k h : String) (ds : List String)
    (hnd : (keysOf dupes).Nodup)
    (huniq : ∀ p ∈ dupes, k ∈ p.2.tail → p = (h, ds))
    (hmem : (h, ds) ∈ dupes) (htail : k ∈ ds.tail) :
    alookup k (markDupes dupes acc) = some h := by
  induction dupes generalizing acc with
  | nil => cases hmem
  | cons p rest ih =>
    have hnd' : p.1 ∉ List.map Prod.fst rest ∧ (keysOf rest).Nodup := by
      simpa [keysOf] using hnd
    by_cases hkp : k ∈ p.2.tail
    · have hp := huniq p (List.mem_cons_self _ _) hkp
      subst hp
      have hlen : 1 < ds.length := by
        cases ds with
        | nil => simp at htail
        | cons a t =>
          cases t with
          | nil => simp at htail
          | cons b t' => simp
      rw [markDupes_cons, if_pos hlen]
      have hframe : ∀ q ∈ rest, k ∉ q.2.tail := by
        intro q hq hkq
        have hq2 := huniq q (List.mem_cons_of_mem _ hq) hkq
        apply hnd'.1
        have hmm : q.1 ∈ List.map Prod.fst rest := List.mem_map_of_mem Prod.fst hq
        rw [hq2] at hmm
        exact hmm
      rw [markDupes_frame rest _ k hframe, alookup_writeAll, if_pos htail]
    · have hmem' : (h, ds) ∈ rest := by
        rcases List.mem_cons.mp hmem with heq | hr
        · exact absurd (by rw [← heq]; exact htail) hkp
        · exact hr
      rw [markDupes_cons]
      exact ih _ hnd'.2 (fun q hq hkq => huniq q (List.mem_cons_of_mem _ hq) hkq) hmem'

/-! ### Key-data lemmas -/

theorem idKeys_data {items : List MailEntry} (hnd : (items.map MailEntry.key).Nodup)
    {k mid : String} (hk : k ∈ idKeys items mid) :
    ∃ m, entryLookup items k = some m ∧ m.messageId = some mid := by
  obtain ⟨e, hmem, hkey, hid⟩ := mem_idKeys.mp hk
  refine ⟨e.msg, ?_, hid⟩
  rw [← hkey]
  exact entryLookup_eq_some_of_mem items e hnd hmem

theorem idKeys_id_unique {items : List MailEntry} (hnd : (items.map MailEntry.key).Nodup)
    {k mid mid' : String} {m : MailMessage} (hl : entryLookup items k = some m)
    (hm : m.messageId = some mid) (hk : k ∈ idKeys items mid') : mid' = mid := by
  obtain ⟨m', hl', hid'⟩ := idKeys_data hnd hk
  rw [hl] at hl'
  have hmm : m = m' := Option.some.inj hl'
  rw [← hmm] at hid'
  rw [hid'] at hm
  exact Option.some.inj hm

/-! ### The removal-decision characterisation -/

theorem decideGroups_lookup {items : List MailEntry} {fast : Bool} {k mid h : String}
    {m : MailMessage} {R : List (String × String)}
    (ND : (items.map MailEntry.key).Nodup)
    (hkm : entryLookup items k = some m) (hmid : m.messageId = some mid)
    (hh : hashKey items fast k = some h)
    (gs : List (String × List String)) (acc : List (String × String))
    (hGP : ∀ p ∈ gs, p.2 = idKeys items p.1)
    (hdec : decideGroups items fast gs acc = some R) :
    alookup k R =
      if mid ∈ keysOf gs ∧ k ∈ (dupList items fast mid h).tail then some h
      else alookup k acc := by
  induction gs generalizing acc with
  | nil =>
    have hR : acc = R := by simpa [decideGroups] using hdec
    subst hR
    simp [keysOf]
  | cons g rest ih =>
    obtain ⟨id, ks⟩ := g
    have hks : ks = idKeys items id := hGP (id, ks) (List.mem_cons_self _ _)
    have hGP' : ∀ p ∈ rest, p.2 = idKeys items p.1 :=
      fun p hp => hGP p (List.mem_cons_of_mem _ hp)
    simp only [decideGroups] at hdec
    by_cases hlen : 1 < ks.length
    · rw [if_pos hlen] at hdec
      cases hbd : buildDupes items fast ks [] with
      | none => rw [hbd] at hdec; exact Option.noConfusion hdec
      | some d =>
        rw [hbd] at hdec
        have hdec' : decideGroups items fast rest (markDupes d acc) = some R := hdec
        have hrec := ih (markDupes d acc) hGP' hdec'
        by_cases hidmid : id = mid
        · subst hidmid
          have hdl : dupFilter items fast ks h = dupList items fast id h := by
            rw [dupList, ← hks]
          by_cases hktail : k ∈ (dupList items fast id h).tail
          · have htail' : k ∈ (dupFilter items fast ks h).tail := by rw [hdl]; exact hktail
            have hne : dupFilter items fast ks h ≠ [] := by
              intro hnil
              rw [hnil] at htail'
              simp at htail'
            have hmemd : (h, dupFilter items fast ks h) ∈ d := by
              apply mem_of_alookup_eq_some
              rw [alookup_buildDupes h hbd, if_neg (by simp [alookup, hne])]
              simp [alookup]
            have huniq : ∀ p ∈ d, k ∈ p.2.tail → p = (h, dupFilter items fast ks h) := by
              intro p hp hkp
              obtain ⟨ph, pds⟩ := p
              have hpds : pds = dupFilter items fast ks ph := buildDupes_mem_eq hbd hp
              have hdata := hashKey_of_mem_dupFilter (hpds ▸ List.mem_of_mem_tail hkp)
              have hph : ph = h := Option.some.inj (hdata.1.symm.trans hh)
              rw [hph] at hpds
              rw [hph, hpds]
            have hdnd := buildDupes_keys_nodup hbd (by simp [keysOf])
            have hmarked := markDupes_marked d acc k h (dupFilter items fast ks h)
              hdnd huniq hmemd htail'
            rw [hrec]
            have hcondT : id ∈ keysOf ((id, ks) :: rest) ∧
                k ∈ (dupList items fast id h).tail := ⟨by simp [keysOf], hktail⟩
            by_cases hcr : id ∈ keysOf rest ∧ k ∈ (dupList items fast id h).tail
            · rw [if_pos hcr, if_pos hcondT]
            · rw [if_neg hcr, if_pos hcondT]
              exact hmarked
          · have hframe : ∀ p ∈ d, k ∉ p.2.tail := by
              intro p hp hkp
              obtain ⟨ph, pds⟩ := p
              have hpds : pds = dupFilter items fast ks ph := buildDupes_mem_eq hbd hp
              have hdata := hashKey_of_mem_dupFilter (hpds ▸ List.mem_of_mem_tail hkp)
              have hph : ph = h := Option.some.inj (hdata.1.symm.trans hh)
              apply hktail
              rw [← hdl]
              rw [hph] at hpds
              rw [← hpds]
              exact hkp
            rw [hrec, markDupes_frame d acc k hframe]
            have hc1 : ¬ (id ∈ keysOf rest ∧ k ∈ (dupList items fast id h).tail) :=
              fun hc => hktail hc.2
            have hc2 : ¬ (id ∈ keysOf ((id, ks) :: rest) ∧
                k ∈ (dupList items fast id h).tail) := fun hc => hktail hc.2
            rw [if_neg hc1, if_neg hc2]
        · have hknotks : k ∉ ks := by
            intro hkks
            exact hidmid (idKeys_id_unique ND hkm hmid (hks ▸ hkks))
          have hframe : ∀ p ∈ d, k ∉ p.2.tail := by
            intro p hp hkp
            obtain ⟨ph, pds⟩ := p
            have hpds : pds = dupFilter items fast ks ph := buildDupes_mem_eq hbd hp
            have hdata := hashKey_of_mem_dupFilter (hpds ▸ List.mem_of_mem_tail hkp)
            exact hknotks hdata.2
          rw [hrec, markDupes_frame d acc k hframe]
          have hiff : (mid ∈ keysOf rest ∧ k ∈ (dupList items fast mid h).tail) ↔
              (mid ∈ keysOf ((id, ks) :: rest) ∧ k ∈ (dupList items fast mid h).tail) := by
            constructor
            · rintro ⟨h1, h2⟩
              refine ⟨?_, h2⟩
              simp only [keysOf, List.map_cons, List.mem_cons]
              exact Or.inr (by simpa [keysOf] using h1)
            · rintro ⟨h1, h2⟩
              refine ⟨?_, h2⟩
              rcases (by simpa [keysOf] using h1 : mid = id ∨ mid ∈ List.map Prod.fst rest)
                with he | hr
              · exact absurd he.symm hidmid
              · simpa [keysOf] using hr
          exact if_congr hiff rfl rfl
    · rw [if_neg hlen] at hdec
      have hrec := ih acc hGP' hdec
      rw [hrec]
      have hiff : (mid ∈ keysOf rest ∧ k ∈ (dupList items fast mid h).tail) ↔
          (mid ∈ keysOf ((id, ks) :: rest) ∧ k ∈ (dupList items fast mid h).tail) := by
        constructor
        · rintro ⟨h1, h2⟩
          refine ⟨?_, h2⟩
          simp only [keysOf, List.map_cons, List.mem_cons]
          exact Or.inr (by simpa [keysOf] using h1)
        · rintro ⟨h1, h2⟩
          refine ⟨?_, h2⟩
          rcases (by simpa [keysOf] using h1 : mid = id ∨ mid ∈ List.map Prod.fst rest)
            with he | hr
          · exfalso
            apply hlen
            have hsub : List.Sublist (dupList items fast mid h) ks := by
              rw [dupList, he, ← hks]
              exact dupFilter_sublist items fast ks h
            have h2' : 2 ≤ (dupList items fast mid h).length := by
              rcases hdl2 : dupList items fast mid h with _ | ⟨a, t⟩
              · rw [hdl2] at h2; simp at h2
              · rcases t with _ | ⟨b, t'⟩
                · rw [hdl2] at h2; simp at h2
                · simp [hdl2]
            have hle := hsub.length_le
            omega
          · simpa [keysOf] using hr
      exact if_congr hiff rfl rfl

theorem decideGroups_mark_source {items : List MailEntry} {fast : Bool} {k : String}
    (gs : List (String × List String)) (acc R : List (String × String))
    (hdec : decideGroups items fast gs acc = some R) (hne : alookup k R ≠ none) :
    alookup k acc ≠ none ∨
      ∃ p ∈ gs, ∃ h0, hashKey items fast k = some h0 ∧ k ∈ p.2 := by
  induction gs generalizing acc with
  | nil =>
    have hR : acc = R := by simpa [decideGroups] using hdec
    subst hR
    exact Or.inl hne
  | cons g rest ih =>
    obtain ⟨id, ks⟩ := g
    simp only [decideGroups] at hdec
    by_cases hlen : 1 < ks.length
    · rw [if_pos hlen] at hdec
      cases hbd : buildDupes items fast ks [] with
      | none => rw [hbd] at hdec; exact Option.noConfusion hdec
      | some d =>
        rw [hbd] at hdec
        have hdec' : decideGroups items fast rest (markDupes d acc) = some R := hdec
        rcases ih (markDupes d acc) hdec' with hacc' | ⟨p, hp, h0, hh0, hkp⟩
        · by_cases hacc : alookup k acc = none
          · right
            have hex : ∃ q ∈ d, k ∈ q.2.tail := by
              by_contra hno
              push_neg at hno
              exact hacc' (by rw [markDupes_frame d acc k hno]; exact hacc)
            obtain ⟨q, hqd, hkq⟩ := hex
            obtain ⟨qh, qds⟩ := q
            have hq2 : qds = dupFilter items fast ks qh := buildDupes_mem_eq hbd hqd
            have hdata := hashKey_of_mem_dupFilter (hq2 ▸ List.mem_of_mem_tail hkq)
            exact ⟨(id, ks), List.mem_cons_self _ _, qh, hdata.1, hdata.2⟩
          · exact Or.inl hacc
        · exact Or.inr ⟨p, List.mem_cons_of_mem _ hp, h0, hh0, hkp⟩
    · rw [if_neg hlen] at hdec
      rcases ih acc hdec with hacc | ⟨p, hp, h0, hh0, hkp⟩
      · exact Or.inl hacc
      · exact Or.inr ⟨p, List.mem_cons_of_mem _ hp, h0, hh0, hkp⟩

/-- Soundness of the removal decision: a marked key belongs to some message
with an identifier, its annotation is that message's computed hash, and the
key sits strictly after the first member of its identifier-and-hash group. -/
theorem pruneDecision_mark_data {items : List MailEntry} {fast : Bool}
    {R : List (String × String)} {k h : String}
    (ND : (items.map MailEntry.key).Nodup)
    (hdec : pruneDecision items fast = some R) (hmark : alookup k R = some h) :
    ∃ mid m, entryLookup items k = some m ∧ m.messageId = some mid ∧
      hashKey items fast k = some h ∧ k ∈ (dupList items fast mid h).tail := by
  have hGP : ∀ q ∈ buildGroups items, q.2 = idKeys items q.1 := by
    intro q hq
    obtain ⟨a, b⟩ := q
    exact buildGroups_mem hq
  have hsrc := decideGroups_mark_source (buildGroups items) [] R hdec
    (by rw [hmark]; simp)
  rcases hsrc with habs | ⟨p, hp, h0, hh0, hkp⟩
  · simp [alookup] at habs
  · obtain ⟨id, ks⟩ := p
    have hks : ks = idKeys items id := buildGroups_mem hp
    have hkid : k ∈ idKeys items id := hks ▸ hkp
    obtain ⟨m, hm, hmid⟩ := idKeys_data ND hkid
    have hmaster := decideGroups_lookup ND hm hmid hh0 (buildGroups items) [] hGP hdec
    rw [hmark] at hmaster
    by_cases hcond : id ∈ keysOf (buildGroups items) ∧ k ∈ (dupList items fast id h0).tail
    · rw [if_pos hcond] at hmaster
      have hh0h : h = h0 := Option.some.inj hmaster
      subst hh0h
      exact ⟨id, m, hm, hmid, hh0, hcond.2⟩
    · rw [if_neg hcond] at hmaster
      simp [alookup] at hmaster
  -- the decision argument above is exhaustive

/-- Completeness of the removal decision: every key strictly after the first
member of its identifier-and-hash group is marked, annotated with the group's
hash. -/
theorem pruneDecision_marks {items : List MailEntry} {fast : Bool}
    {R : List (String × String)} {k mid h : String} {m : MailMessage}
    (ND : (items.map MailEntry.key).Nodup)
    (hdec : pruneDecision items fast = some R)
    (hm : entryLookup items k = some m) (hmid : m.messageId = some mid)
    (hh : hashKey items fast k = some h) (htail : k ∈ (dupList items fast mid h).tail) :
    alookup k R = some h := by
  have hGP : ∀ q ∈ buildGroups items, q.2 = idKeys items q.1 := by
    intro q hq
    obtain ⟨a, b⟩ := q
    exact buildGroups_mem hq
  have hmaster := decideGroups_lookup ND hm hmid hh (buildGroups items) [] hGP hdec
  have hmem : mid ∈ keysOf (buildGroups items) := by
    rw [buildGroups_keys_mem]
    intro hnil
    have hmm : k ∈ dupList items fast mid h := List.mem_of_mem_tail htail
    rw [dupList, hnil] at hmm
    simp [dupFilter] at hmm
  rw [if_pos ⟨hmem, htail⟩] at hmaster
  exact hmaster

/-- In fast mode (hashing skipped) the decision computation never raises. -/
theorem pruneDecision_fast_total (items : List MailEntry) :
    ∃ R, pruneDecision items true = some R := by
  have haux : ∀ (gs : List (String × List String)) (acc : List (String × String)),
      ∃ R, decideGroups items true gs acc = some R := by
    intro gs
    induction gs with
    | nil => intro acc; exact ⟨acc, rfl⟩
    | cons g rest ih =>
      intro acc
      obtain ⟨id, ks⟩ := g
      by_cases hlen : 1 < ks.length
      · obtain ⟨d, hd⟩ := buildDupes_total_of_fast items ks []
        obtain ⟨R, hR⟩ := ih (markDupes d acc)
        refine ⟨R, ?_⟩
        simp only [decideGroups, if_pos hlen, hd]
        exact hR
      · obtain ⟨R, hR⟩ := ih acc
        refine ⟨R, ?_⟩
        simp only [decideGroups, if_neg hlen]
        exact hR
  exact haux (buildGroups items) []

theorem idKeys_sublist (items : List MailEntry) (mid : String) :
    List.Sublist (idKeys items mid) (items.map MailEntry.key) :=
  List.Sublist.map MailEntry.key (List.filter_sublist items)

theorem dupList_nodup {items : List MailEntry} (ND : (items.map MailEntry.key).Nodup)
    (fast : Bool) (mid h : String) : (dupList items fast mid h).Nodup :=
  List.Nodup.sublist ((dupFilter_sublist _ _ _ _).trans (idKeys_sublist items mid)) ND

theorem dupList_data {items : List MailEntry} (ND : (items.map MailEntry.key).Nodup)
    {fast : Bool} {mid h k : String} (hk : k ∈ dupList items fast mid h) :
    ∃ m, entryLookup items k = some m ∧ m.messageId = some mid ∧
      hashKey items fast k = some h := by
  have hdata := hashKey_of_mem_dupFilter hk
  obtain ⟨m, hm, hmid⟩ := idKeys_data ND hdata.2
  exact ⟨m, hm, hmid, hdata.1⟩

theorem idKeys_ne_nil_iff {items : List MailEntry} {mid : String} :
    idKeys items mid ≠ [] ↔ ∃ e ∈ items, e.msg.messageId = some mid := by
  constructor
  · intro hne
    obtain ⟨k, hk⟩ := List.exists_mem_of_ne_nil _ hne
    obtain ⟨e, hmem, _, hid⟩ := mem_idKeys.mp hk
    exact ⟨e, hmem, hid⟩
  · intro ⟨e, hmem, hid⟩ hnil
    have hm : e.key ∈ idKeys items mid := mem_idKeys.mpr ⟨e, hmem, rfl, hid⟩
    rw [hnil] at hm
    cases hm

/-- The `messages` dictionary has one entry per distinct identifier value
carried by some message of the folder. -/
theorem buildGroups_length (items : List MailEntry) :
    (buildGroups items).length =
      (items.filterMap (fun e => e.msg.messageId)).dedup.length := by
  have h1 : (buildGroups items).length = (keysOf (buildGroups items)).length := by
    simp [keysOf]
  have h2 : (keysOf (buildGroups items)).toFinset =
      (items.filterMap (fun e => e.msg.messageId)).toFinset := by
    ext mid
    simp only [List.mem_toFinset, List.mem_filterMap]
    rw [buildGroups_keys_mem, idKeys_ne_nil_iff]
  rw [h1, ← List.toFinset_card_of_nodup (buildGroups_keys_nodup items), h2,
    List.card_toFinset]

/-! ### Pruning-executor (`remove`) lemmas -/

theorem entryLookup_eraseP_ne (items : List MailEntry) (key k : String) (hne : k ≠ key) :
    entryLookup (items.eraseP (fun e => e.key == key)) k = entryLookup items k := by
  induction items with
  | nil => rfl
  | cons e rest ih =>
    by_cases he : e.key = key
    · rw [List.eraseP_cons_of_pos (by simp [he])]
      have hek : e.key ≠ k := fun hh => hne (hh.symm.trans he)
      rw [entryLookup, if_neg hek]
    · rw [List.eraseP_cons_of_neg (by simp [he])]
      by_cases hek : e.key = k
      · rw [entryLookup, if_pos hek, entryLookup, if_pos hek]
      · rw [entryLookup, if_neg hek, entryLookup, if_neg hek, ih]

theorem mem_eraseP_of_pred_false {l : List MailEntry} {e : MailEntry}
    {p : MailEntry → Bool} (hmem : e ∈ l) (hp : p e = false) : e ∈ l.eraseP p := by
  induction l with
  | nil => cases hmem
  | cons x rest ih =>
    by_cases hx : p x
    · rw [List.eraseP_cons_of_pos hx]
      rcases List.mem_cons.mp hmem with he | hr
      · rw [he, hx] at hp; cases hp
      · exact hr
    · rw [List.eraseP_cons_of_neg hx]
      rcases List.mem_cons.mp hmem with he | hr
      · rw [he]; exact List.mem_cons_self _ _
      · exact List.mem_cons_of_mem _ (ih hr)

/-! ### Wrapping-arithmetic lemmas -/

theorem wrap32_add_left (a b : Int) : wrap32 (wrap32 a + b) = wrap32 (a + b) := by
  unfold wrap32
  omega

theorem wrap32_eq_self {a : Int} (h1 : -2147483648 ≤ a) (h2 : a < 2147483648) :
    wrap32 a = a := by
  unfold wrap32
  omega

theorem wrap32_range (a : Int) :
    -2147483648 ≤ wrap32 a ∧ wrap32 a < 2147483648 := by
  unfold wrap32
  omega

theorem ofNat_succ_eq (n : Nat) : Int.ofNat (n + 1) = Int.ofNat n + 1 := rfl

/-- A dry run of `remove` leaves the folder contents untouched. -/
theorem remove_dry_items {tr : List (String × String)} :
    ∀ {items : List MailEntry} {c c' : Counter} {items' : List MailEntry},
      remove tr items c true = some (c', items') → items' = items := by
  induction tr with
  | nil =>
    intro items c c' items' hrun
    simp only [remove] at hrun
    exact ((Prod.mk.injEq _ _ _ _ ▸ Option.some.inj hrun).2).symm
  | cons p rest ih =>
    intro items c c' items' hrun
    obtain ⟨key, hs⟩ := p
    simp only [remove] at hrun
    split at hrun
    · exact Option.noConfusion hrun
    · split at hrun
      · exact Option.noConfusion hrun
      · simp only [if_pos] at hrun
        exact ih hrun

/-- Running `remove` never touches the mailbox/message counters. -/
theorem remove_other_counters {tr : List (String × String)} :
    ∀ {items : List MailEntry} {c c' : Counter} {items' : List MailEntry} {dry : Bool},
      remove tr items c dry = some (c', items') →
      c'.messages = c.messages ∧ c'.mboxes = c.mboxes := by
  induction tr with
  | nil =>
    intro items c c' items' dry hrun
    simp only [remove] at hrun
    have hc : c = c' := (Prod.mk.injEq _ _ _ _ ▸ Option.some.inj hrun).1
    rw [← hc]
    exact ⟨rfl, rfl⟩
  | cons p rest ih =>
    intro items c c' items' dry hrun
    obtain ⟨key, hs⟩ := p
    simp only [remove] at hrun
    split at hrun
    · exact Option.noConfusion hrun
    · split at hrun
      · exact Option.noConfusion hrun
      · simpa [Counter.add_deleted] using ih hrun

/-- Running `remove` counts one deleted message per decision entry: from a
representable (32-bit) starting value, the final deleted-messages cell holds
the wrapped sum of the start value and the number of entries. -/
theorem remove_del_messages {tr : List (String × String)} :
    ∀ {items : List MailEntry} {c c' : Counter} {items' : List MailEntry} {dry : Bool},
      -2147483648 ≤ c.del_messages → c.del_messages < 2147483648 →
      remove tr items c dry = some (c', items') →
      c'.del_messages = wrap32 (c.del_messages + Int.ofNat tr.length) := by
  induction tr with
  | nil =>
    intro items c c' items' dry hlo hhi hrun
    simp only [remove] at hrun
    have hc : c = c' := (Prod.mk.injEq _ _ _ _ ▸ Option.some.inj hrun).1
    rw [← hc, List.length_nil]
    rw [show Int.ofNat 0 = (0 : Int) from rfl, add_zero]
    exact (wrap32_eq_self hlo hhi).symm
  | cons p rest ih =>
    intro items c c' items' dry hlo hhi hrun
    obtain ⟨key, hs⟩ := p
    cases hl : entryLookup items key with
    | none => simp only [remove, hl] at hrun; exact Option.noConfusion hrun
    | some m =>
      cases hdb : (match m.contentLength with
                   | none => some (0 : Int)
                   | some cl => pyInt cl) with
      | none => simp only [remove, hl, hdb] at hrun; exact Option.noConfusion hrun
      | some db =>
        simp only [remove, hl, hdb] at hrun
        have hwr : -2147483648 ≤ (c.add_deleted 1 db).del_messages ∧
            (c.add_deleted 1 db).del_messages < 2147483648 := by
          simp only [Counter.add_deleted]
          exact wrap32_range _
        have hrec := ih hwr.1 hwr.2 hrun
        simp only [Counter.add_deleted] at hrec
        rw [hrec, wrap32_add_left]
        congr 1
        rw [List.length_cons, ofNat_succ_eq]
        ring

/-- An entry whose key is not in the decision survives `remove`. -/
theorem remove_frame {tr : List (String × String)} :
    ∀ {items : List MailEntry} {c c' : Counter} {items' : List MailEntry} {dry : Bool}
      {e : MailEntry},
      e ∈ items → alookup e.key tr = none →
      remove tr items c dry = some (c', items') → e ∈ items' := by
  induction tr with
  | nil =>
    intro items c c' items' dry e hmem _ hrun
    simp only [remove] at hrun
    have h := (Prod.mk.injEq _ _ _ _ ▸ Option.some.inj hrun).2
    rw [← h]
    exact hmem
  | cons p rest ih =>
    intro items c c' items' dry e hmem hnk hrun
    obtain ⟨key, hs⟩ := p
    have hkk : key ≠ e.key ∧ alookup e.key rest = none := by
      by_cases hk : key = e.key
      · rw [alookup, if_pos hk] at hnk; cases hnk
      · rw [alookup, if_neg hk] at hnk; exact ⟨hk, hnk⟩
    simp only [remove] at hrun
    split at hrun
    · exact Option.noConfusion hrun
    · split at hrun
      · exact Option.noConfusion hrun
      · cases dry with
        | true => exact ih hmem hkk.2 (by simpa using hrun)
        | false =>
          refine ih ?_ hkk.2 (by simpa using hrun)
          refine mem_eraseP_of_pred_false hmem ?_
          simp only [beq_eq_false_iff_ne, ne_eq]
          exact fun hh => hkk.1 hh.symm

/-- Dry-run byte accounting: from a representable starting value, `remove`
leaves the deleted-bytes cell at the wrapped sum of the start value and every
decision entry's declared content length. -/
theorem remove_dry_bytes {tr : List (String × String)} :
    ∀ {items : List MailEntry} {c c' : Counter} {items' : List MailEntry},
      -2147483648 ≤ c.del_bytes → c.del_bytes < 2147483648 →
      remove tr items c true = some (c', items') →
      c'.del_bytes = wrap32 (c.del_bytes + declaredBytes items tr) := by
  induction tr with
  | nil =>
    intro items c c' items' hlo hhi hrun
    simp only [remove] at hrun
    have hc : c = c' := (Prod.mk.injEq _ _ _ _ ▸ Option.some.inj hrun).1
    rw [← hc]
    simp only [declaredBytes, List.map_nil, List.sum_nil, add_zero]
    exact (wrap32_eq_self hlo hhi).symm
  | cons p rest ih =>
    intro items c c' items' hlo hhi hrun
    obtain ⟨key, hs⟩ := p
    cases hl : entryLookup items key with
    | none => simp only [remove, hl] at hrun; exact Option.noConfusion hrun
    | some m =>
      cases hdb : (match m.contentLength with
                   | none => some (0 : Int)
                   | some cl => pyInt cl) with
      | none => simp only [remove, hl, hdb] at hrun; exact Option.noConfusion hrun
      | some db =>
        simp only [remove, hl, hdb, if_pos] at hrun
        have hwr : -2147483648 ≤ (c.add_deleted 1 db).del_bytes ∧
            (c.add_deleted 1 db).del_bytes < 2147483648 := by
          simp only [Counter.add_deleted]
          exact wrap32_range _
        have hrec := ih hwr.1 hwr.2 hrun
        simp only [Counter.add_deleted] at hrec
        have hdb' : entryBytes items key = db := by
          cases hcl : m.contentLength with
          | none =>
            have hz : db = 0 := by simpa [hcl] using hdb.symm
            simp [entryBytes, hl, hcl, hz]
          | some cl =>
            have hp : pyInt cl = some db := by simpa [hcl] using hdb
            simp [entryBytes, hl, hcl, hp]
        rw [hrec, wrap32_add_left]
        congr 1
        simp only [declaredBytes, List.map_cons, List.sum_cons, hdb']
        ring

/-- The counter outcome of `remove` does not depend on `dry_run` (nor on
whether the looked-up store has already had unrelated keys deleted). -/
theorem remove_counter_eq {tr : List (String × String)} :
    ∀ {items1 items2 : List MailEntry} {c : Counter} {dry1 dry2 : Bool},
      (keysOf tr).Nodup →
      (∀ k, k ∈ keysOf tr → entryLookup items1 k = entryLookup items2 k) →
      (remove tr items1 c dry1).map Prod.fst = (remove tr items2 c dry2).map Prod.fst := by
  induction tr with
  | nil => intro items1 items2 c dry1 dry2 _ _; rfl
  | cons p rest ih =>
    intro items1 items2 c dry1 dry2 hnd hagree
    obtain ⟨key, hs⟩ := p
    have hagkey : entryLookup items1 key = entryLookup items2 key :=
      hagree key (by simp [keysOf])
    have hnd' : key ∉ List.map Prod.fst rest ∧ (keysOf rest).Nodup := by
      simpa [keysOf] using hnd
    cases hl : entryLookup items1 key with
    | none =>
      have hl2 : entryLookup items2 key = none := hagkey ▸ hl
      simp only [remove, hl, hl2]
    | some m =>
      have hl2 : entryLookup items2 key = some m := hagkey ▸ hl
      cases hdb : (match m.contentLength with
                   | none => some (0 : Int)
                   | some cl => pyInt cl) with
      | none => simp only [remove, hl, hl2, hdb]
      | some db =>
        simp only [remove, hl, hl2, hdb]
        apply ih hnd'.2
        intro k hk
        have hkne : k ≠ key := fun hh => hnd'.1 (hh ▸ hk)
        have h1 : entryLookup
            (if dry1 = true then items1 else items1.eraseP (fun e => e.key == key)) k =
            entryLookup items1 k := by
          split
          · rfl
          · exact entryLookup_eraseP_ne items1 key k hkne
        have h2 : entryLookup
            (if dry2 = true then items2 else items2.eraseP (fun e => e.key == key)) k =
            entryLookup items2 k := by
          split
          · rfl
          · exact entryLookup_eraseP_ne items2 key k hkne
        rw [h1, h2]
        refine hagree k ?_
        simp only [keysOf, List.map_cons, List.mem_cons]
        exact Or.inr hk

/-- When every decision entry's declared content length is non-negative and
the run stays inside the signed 32-bit range of the cells, `remove` never
decreases the deletion counters. -/
theorem remove_mono_wrap {tr : List (String × String)} :
    ∀ {items : List MailEntry} {c c' : Counter} {items' : List MailEntry} {dry : Bool},
      (keysOf tr).Nodup →
      (∀ p ∈ tr, 0 ≤ entryBytes items p.1) →
      0 ≤ c.del_messages → 0 ≤ c.del_bytes →
      c.del_messages + Int.ofNat tr.length < 2147483648 →
      c.del_bytes + declaredBytes items tr < 2147483648 →
      remove tr items c dry = some (c', items') →
      c.del_messages ≤ c'.del_messages ∧ c.del_bytes ≤ c'.del_bytes := by
  induction tr with
  | nil =>
    intro items c c' items' dry _ _ _ _ _ _ hrun
    simp only [remove] at hrun
    have hc : c = c' := (Prod.mk.injEq _ _ _ _ ▸ Option.some.inj hrun).1
    rw [← hc]
    exact ⟨le_refl _, le_refl _⟩
  | cons p rest ih =>
    intro items c c' items' dry hnd hbb hm0 hb0 hmcap hbcap hrun
    obtain ⟨key, hs⟩ := p
    have hnd' : key ∉ List.map Prod.fst rest ∧ (keysOf rest).Nodup := by
      simpa [keysOf] using hnd
    cases hl : entryLookup items key with
    | none => simp only [remove, hl] at hrun; exact Option.noConfusion hrun
    | some m =>
      cases hdb : (match m.contentLength with
                   | none => some (0 : Int)
                   | some cl => pyInt cl) with
      | none => simp only [remove, hl, hdb] at hrun; exact Option.noConfusion hrun
      | some db =>
        simp only [remove, hl, hdb] at hrun
        have hdbval : entryBytes items key = db := by
          cases hcl : m.contentLength with
          | none =>
            have hz : db = 0 := by simpa [hcl] using hdb.symm
            simp [entryBytes, hl, hcl, hz]
          | some cl =>
            have hp : pyInt cl = some db := by simpa [hcl] using hdb
            simp [entryBytes, hl, hcl, hp]
        have hdbnn : 0 ≤ db := hdbval ▸ hbb (key, hs) (List.mem_cons_self _ _)
        have hrestnn : 0 ≤ declaredBytes items rest := by
          apply List.sum_nonneg
          intro x hx
          obtain ⟨q, hq, hxe⟩ := List.mem_map.mp hx
          rw [← hxe]
          exact hbb q (List.mem_cons_of_mem _ hq)
        have hdecl : declaredBytes items ((key, hs) :: rest) =
            db + declaredBytes items rest := by
          simp only [declaredBytes, List.map_cons, List.sum_cons, hdbval]
        rw [hdecl] at hbcap
        have hA : (0 : Int) ≤ Int.ofNat rest.length := Int.ofNat_nonneg _
        rw [List.length_cons, ofNat_succ_eq] at hmcap
        -- the two cells after this entry, with the wrap collapsed
        have hdm1 : (c.add_deleted 1 db).del_messages = c.del_messages + 1 := by
          simp only [Counter.add_deleted]
          apply wrap32_eq_self <;> omega
        have hdb1 : (c.add_deleted 1 db).del_bytes = c.del_bytes + db := by
          simp only [Counter.add_deleted]
          apply wrap32_eq_self <;> omega
        -- the mutated store agrees with the original on the remaining keys
        have hEB : ∀ q ∈ rest,
            entryBytes (if dry = true then items
              else items.eraseP (fun e => e.key == key)) q.1 =
              entryBytes items q.1 := by
          intro q hq
          have hkne : q.1 ≠ key := fun hh =>
            hnd'.1 (hh ▸ List.mem_map_of_mem Prod.fst hq)
          have h2 : entryLookup (if dry = true then items
              else items.eraseP (fun e => e.key == key)) q.1 =
              entryLookup items q.1 := by
            split
            · rfl
            · exact entryLookup_eraseP_ne items key q.1 hkne
          simp only [entryBytes, h2]
        have hDB2 : declaredBytes (if dry = true then items
            else items.eraseP (fun e => e.key == key)) rest =
            declaredBytes items rest := by
          simp only [declaredBytes]
          congr 1
          exact List.map_congr_left (fun q hq => by rw [hEB q hq])
        have hres := ih hnd'.2
          (fun q hq => (hEB q hq) ▸ hbb q (List.mem_cons_of_mem _ hq))
          (by rw [hdm1]; omega) (by rw [hdb1]; omega)
          (by rw [hdm1]; omega) (by rw [hdb1, hDB2]; omega) hrun
        constructor
        · rw [hdm1] at hres
          have h1 := hres.1
          omega
        · rw [hdb1] at hres
          have h2 := hres.2
          omega

/-! ### Decision keys are duplicate-free -/

theorem keysOf_dictSet (d : List (String × String)) (k v : String) :
    keysOf (dictSet d k v) = if alookup k d = none then keysOf d ++ [k] else keysOf d := by
  induction d with
  | nil => simp [dictSet, alookup, keysOf]
  | cons p rest ih =>
    obtain ⟨i, w⟩ := p
    by_cases hik : i = k
    · subst hik; simp [dictSet, alookup, keysOf]
    · have h1 : dictSet ((i, w) :: rest) k v = (i, w) :: dictSet rest k v := by
        simp [dictSet, hik]
      have h2 : alookup k ((i, w) :: rest) = alookup k rest := by
        simp [alookup, hik]
      rw [h1, h2]
      show i :: keysOf (dictSet rest k v) = _
      rw [ih]
      split <;> simp [keysOf]

theorem keysOf_dictSet_nodup (d : List (String × String)) (k v : String)
    (hnd : (keysOf d).Nodup) : (keysOf (dictSet d k v)).Nodup := by
  rw [keysOf_dictSet]
  split
  · next hnone =>
    have hk : k ∉ keysOf d := (alookup_eq_none k d).mp hnone
    simpa [List.nodup_append] using ⟨hnd, hk⟩
  · exact hnd

theorem writeAll_keys_nodup (ks : List String) (h : String) :
    ∀ (acc : List (String × String)), (keysOf acc).Nodup →
      (keysOf (writeAll ks h acc)).Nodup := by
  induction ks with
  | nil => intro acc hnd; exact hnd
  | cons x rest ih =>
    intro acc hnd
    exact ih (dictSet acc x h) (keysOf_dictSet_nodup acc x h hnd)

theorem markDupes_keys_nodup (dupes : List (String × List String)) :
    ∀ (acc : List (String × String)), (keysOf acc).Nodup →
      (keysOf (markDupes dupes acc)).Nodup := by
  induction dupes with
  | nil => intro acc hnd; exact hnd
  | cons p rest ih =>
    intro acc hnd
    rw [markDupes_cons]
    apply ih
    split
    · exact writeAll_keys_nodup _ _ acc hnd
    · exact hnd

theorem decideGroups_keys_nodup {items : List MailEntry} {fast : Bool} :
    ∀ (gs : List (String × List String)) (acc R : List (String × String)),
      decideGroups items fast gs acc = some R → (keysOf acc).Nodup →
      (keysOf R).Nodup := by
  intro gs
  induction gs with
  | nil =>
    intro acc R hdec hnd
    have hR : acc = R := by simpa [decideGroups] using hdec
    subst hR
    exact hnd
  | cons g rest ih =>
    intro acc R hdec hnd
    obtain ⟨id, ks⟩ := g
    simp only [decideGroups] at hdec
    split at hdec
    · split at hdec
      · exact Option.noConfusion hdec
      · exact ih _ R hdec (markDupes_keys_nodup _ _ hnd)
    · exact ih _ R hdec hnd

theorem pruneDecision_keys_nodup {items : List MailEntry} {fast : Bool}
    {R : List (String × String)} (hdec : pruneDecision items fast = some R) :
    (keysOf R).Nodup :=
  decideGroups_keys_nodup _ _ R hdec (by simp [keysOf])

/-! ### Folder-level pass lemmas -/

theorem pruneFolder_eq_some {items : List MailEntry} {fast dry : Bool} {c c' : Counter}
    {items' : List MailEntry} (h : pruneFolder items fast dry c = some (c', items')) :
    ∃ tr, pruneDecision items fast = some tr ∧
      remove tr items
        ((c.add_mboxes 1).add_messages (Int.ofNat (buildGroups items).length)) dry =
        some (c', items') := by
  simp only [pruneFolder] at h
  split at h
  · exact Option.noConfusion h
  · next tr heq => exact ⟨tr, heq, h⟩

theorem pruneFolder_dry_items {items : List MailEntry} {fast : Bool} {c c' : Counter}
    {items' : List MailEntry} (h : pruneFolder items fast true c = some (c', items')) :
    items' = items := by
  obtain ⟨tr, _, hrem⟩ := pruneFolder_eq_some h
  exact remove_dry_items hrem

theorem prune_eq_some {mbox : Maildir} {fast dry : Bool} {c c' : Counter} {mbox' : Maildir}
    (h : prune mbox fast dry c = some (c', mbox')) :
    pruneFolder mbox.items fast dry c = some (c', mbox'.items) ∧
      mbox.folderNames = [] ∧ mbox'.folderNames = [] := by
  simp only [prune] at h
  split at h
  · exact Option.noConfusion h
  · next c'' items'' heq =>
    split at h
    · next hfn =>
      have hmb := Option.some.inj h
      have hc : c'' = c' := (Prod.mk.injEq _ _ _ _ ▸ hmb).1
      have hm : { mbox with items := items'' } = mbox' := (Prod.mk.injEq _ _ _ _ ▸ hmb).2
      subst hc
      refine ⟨?_, hfn, ?_⟩
      · rw [← hm]
        exact heq
      · rw [← hm]
        exact hfn
    · exact Option.noConfusion h

/-! ### Multipart hashing facts -/

theorem strJoin_empty (sep : String) : strJoin sep "" = "" := rfl

/-- Joining the characters of the empty string with `hashes[0].join("")`
yields `""`, so a successfully digested multipart message always hashes the
empty string. -/
theorem hash_content_multipart_eq (parts : List MessageBody) (hs : List String)
    (hch : hash_children parts = some hs) (hne : hs ≠ []) :
    hash_content (.multipart parts) = some (sha256hex "") := by
  cases hs with
  | nil => exact absurd rfl hne
  | cons h0 rest =>
    simp only [hash_content, hch]
    rw [strJoin_empty]

/-! ### Sample messages used by concrete witnesses -/

/-- A message with identifier "i", body "a", no Content-Length. -/
def msgA : MailMessage :=
  ⟨some "i", some "s1", none, some "d1", some "alice", .leaf "a", []⟩

/-- A second message with the same identifier and body as `msgA`. -/
def msgB : MailMessage :=
  ⟨some "i", some "s2", none, some "d2", some "bob", .leaf "a", []⟩

/-- A message without any identifier header. -/
def msgNoId : MailMessage :=
  ⟨none, some "s3", none, some "d3", some "carol", .leaf "b", []⟩

/-- A duplicate-by-identifier message declaring a negative Content-Length. -/
def msgNeg : MailMessage :=
  ⟨some "i", some "s4", some "-5", some "d4", some "dave", .leaf "c", []⟩

/-- Two duplicate-by-identifier messages declaring Content-Length 7. -/
def msgLen7A : MailMessage :=
  ⟨some "i", some "s5", some "7", some "d5", some "erin", .leaf "d", []⟩

def msgLen7B : MailMessage :=
  ⟨some "i", some "s6", some "7", some "d6", some "finn", .leaf "d", []⟩

/-- A message with every checked header except the sender, and no defects. -/
def msgNoSender : MailMessage :=
  ⟨some "i9", some "s9", none, some "d9", none, .leaf "e", []⟩

/-! ### Claim theorems -/

/-- C1, counterexample: on the composite message with children `"x"` and
`"y"`, `hash_content` does *not* return the hash of the first child's digest
string; it returns the digest of the empty string, which differs. -/
theorem claim1_counterexample :
    hash_content (.multipart [.leaf "x", .leaf "y"]) ≠
        some (sha256hex (sha256hex "x")) ∧
      hash_content (.multipart [.leaf "x", .leaf "y"]) = some (sha256hex "") := by
  constructor
  · decide
  · decide

/-- C1 (amended): for every composite message whose children all digest
successfully (at least one child), the Content Hasher digests each child in
declared order and then returns the SHA-256 digest of the *empty string* —
the `hashes[0].join("")` combination discards every child digest, including
the first one. -/
theorem claim1_amended_multipart_hashes_empty (parts : List MessageBody) (hs : List String)
    (hch : hash_children parts = some hs) (hne : hs ≠ []) :
    hash_content (.multipart parts) = some (sha256hex "") :=
  hash_content_multipart_eq parts hs hch hne

/-- C1 witness: the amended claim at the concrete one-child message. -/
theorem claim1_amended_witness :
    hash_content (.multipart [.leaf "x"]) = some (sha256hex "") :=
  claim1_amended_multipart_hashes_empty [.leaf "x"] [sha256hex "x"] (by decide)
    (by decide)

/-- C2: every multi-part message with at least one (successfully digested)
child hashes to the SHA-256 digest of the empty string, independent of the
children's contents; in particular any two such messages receive identical
digests, and when two of them share an identifier in a folder the second is
judged a content-equal duplicate of the first by the removal decision. -/
theorem claim2_multipart_digest_constant (parts1 parts2 : List MessageBody)
    (hs1 hs2 : List String)
    (hch1 : hash_children parts1 = some hs1) (hne1 : hs1 ≠ [])
    (hch2 : hash_children parts2 = some hs2) (hne2 : hs2 ≠ []) :
    hash_content (.multipart parts1) = some (sha256hex "") ∧
    hash_content (.multipart parts2) = hash_content (.multipart parts1) ∧
    ∀ (k1 k2 f1 f2 mid : String) (m1 m2 : MailMessage),
      k1 ≠ k2 → m1.body = .multipart parts1 → m2.body = .multipart parts2 →
      m1.messageId = some mid → m2.messageId = some mid →
      ∃ R, pruneDecision [⟨k1, f1, m1⟩, ⟨k2, f2, m2⟩] false = some R ∧
        alookup k2 R = some (sha256hex "") := by
  have hA := hash_content_multipart_eq parts1 hs1 hch1 hne1
  have hB := hash_content_multipart_eq parts2 hs2 hch2 hne2
  refine ⟨hA, hB.trans hA.symm, ?_⟩
  intro k1 k2 f1 f2 mid m1 m2 hk hb1 hb2 hid1 hid2
  refine ⟨[(k2, sha256hex "")], ?_, by simp [alookup]⟩
  have hhc1 : hash_content m1.body = some (sha256hex "") := by rw [hb1]; exact hA
  have hhc2 : hash_content m2.body = some (sha256hex "") := by rw [hb2]; exact hB
  simp [pruneDecision, buildGroups, bgAux, dictAppend, decideGroups, buildDupes,
    hashKey, entryLookup, markDupes, writeAll, dictSet, hid1, hid2, hhc1, hhc2, hk]

/-- C2 witness: the claim at two concrete one-child multipart bodies. -/
theorem claim2_witness :
    hash_content (.multipart [.leaf "a"]) = some (sha256hex "") ∧
    hash_content (.multipart [.leaf "bb"]) = hash_content (.multipart [.leaf "a"]) ∧
    ∀ (k1 k2 f1 f2 mid : String) (m1 m2 : MailMessage),
      k1 ≠ k2 → m1.body = .multipart [.leaf "a"] → m2.body = .multipart [.leaf "bb"] →
      m1.messageId = some mid → m2.messageId = some mid →
      ∃ R, pruneDecision [⟨k1, f1, m1⟩, ⟨k2, f2, m2⟩] false = some R ∧
        alookup k2 R = some (sha256hex "") :=
  claim2_multipart_digest_constant [.leaf "a"] [.leaf "bb"]
    [sha256hex "a"] [sha256hex "bb"] (by decide) (by decide) (by decide) (by decide)

theorem dupList_fast (items : List MailEntry) (mid : String) :
    dupList items true mid "-" = idKeys items mid := by
  rw [dupList, dupFilter]
  apply List.filter_eq_self.mpr
  intro a _
  simp [hashKey]

/-- C3: for every folder (duplicate-free keys) and every group of n ≥ 2
messages sharing one identifier and one computed content digest, one prune
pass marks every key of the group except the first in folder iteration order
(each annotated with the shared digest), the first key is never marked, and
exactly n − 1 of the group's keys are marked. -/
theorem claim3_exactly_all_but_first_removed (items : List MailEntry) (mid h : String)
    (R : List (String × String))
    (ND : (items.map MailEntry.key).Nodup)
    (hdec : pruneDecision items false = some R)
    (hn : 2 ≤ (dupList items false mid h).length) :
    (∀ k ∈ (dupList items false mid h).tail, alookup k R = some h) ∧
    (∀ s, (dupList items false mid h).head? = some s → alookup s R = none) ∧
    ((dupList items false mid h).filter (fun k => (alookup k R).isSome)).length =
      (dupList items false mid h).length - 1 := by
  have hmark : ∀ k ∈ (dupList items false mid h).tail, alookup k R = some h := by
    intro k hk
    obtain ⟨m, hm, hmid, hh⟩ := dupList_data ND (List.mem_of_mem_tail hk)
    exact pruneDecision_marks ND hdec hm hmid hh hk
  have hhead : ∀ s, (dupList items false mid h).head? = some s → alookup s R = none := by
    intro s hs
    cases hdl : dupList items false mid h with
    | nil => rw [hdl] at hs; cases hs
    | cons a t =>
      rw [hdl] at hs
      have hsa : a = s := Option.some.inj hs
      subst hsa
      cases halo : alookup a R with
      | none => rfl
      | some h' =>
        exfalso
        obtain ⟨mid', m', hm', hmid', hh', htail'⟩ :=
          pruneDecision_mark_data ND hdec halo
        have hamem : a ∈ dupList items false mid h := by
          rw [hdl]; exact List.mem_cons_self _ _
        obtain ⟨m0, hm0, hmid0, hh0⟩ := dupList_data ND hamem
        have hmm : m' = m0 := Option.some.inj (hm'.symm.trans hm0)
        rw [hmm] at hmid'
        have hmideq : mid' = mid := Option.some.inj (hmid'.symm.trans hmid0)
        have hheq : h' = h := Option.some.inj (hh'.symm.trans hh0)
        rw [hmideq, hheq, hdl] at htail'
        have hnd := dupList_nodup ND false mid h
        rw [hdl] at hnd
        exact (List.nodup_cons.mp hnd).1 htail'
  refine ⟨hmark, hhead, ?_⟩
  cases hdl : dupList items false mid h with
  | nil => rw [hdl] at hn; simp at hn
  | cons a t =>
    have hafalse : (alookup a R).isSome = false := by
      have ha := hhead a (by rw [hdl]; rfl)
      simp [ha]
    have htcount : t.filter (fun k => (alookup k R).isSome) = t := by
      apply List.filter_eq_self.mpr
      intro k hk
      have hks := hmark k (by rw [hdl]; exact hk)
      simp [hks]
    simp [List.filter_cons, hafalse, htcount]

/-- C3 witness: two messages share identifier "i" and body "a"; the prune
decision marks exactly the second. -/
theorem claim3_witness :
    (∀ k ∈ (dupList [⟨"k1", "f1", msgA⟩, ⟨"k2", "f2", msgB⟩] false "i"
        (sha256hex "a")).tail,
      alookup k [("k2", sha256hex "a")] = some (sha256hex "a")) ∧
    (∀ s, (dupList [⟨"k1", "f1", msgA⟩, ⟨"k2", "f2", msgB⟩] false "i"
        (sha256hex "a")).head? = some s →
      alookup s [("k2", sha256hex "a")] = none) ∧
    ((dupList [⟨"k1", "f1", msgA⟩, ⟨"k2", "f2", msgB⟩] false "i"
        (sha256hex "a")).filter
        (fun k => (alookup k [("k2", sha256hex "a")]).isSome)).length =
      (dupList [⟨"k1", "f1", msgA⟩, ⟨"k2", "f2", msgB⟩] false "i"
        (sha256hex "a")).length - 1 :=
  claim3_exactly_all_but_first_removed [⟨"k1", "f1", msgA⟩, ⟨"k2", "f2", msgB⟩]
    "i" (sha256hex "a") [("k2", sha256hex "a")] (by decide) (by decide) (by decide)

/-- C4: on a folder with duplicate-free keys, every key marked for removal by
the normal-mode decision is also marked by the fast-mode decision on the same
folder contents. -/
theorem claim4_normal_subset_fast (items : List MailEntry)
    (Rn Rf : List (String × String))
    (ND : (items.map MailEntry.key).Nodup)
    (hn : pruneDecision items false = some Rn)
    (hf : pruneDecision items true = some Rf) :
    ∀ k h, alookup k Rn = some h → (alookup k Rf).isSome := by
  intro k h hmark
  obtain ⟨mid, m, hm, hmid, hh, htail⟩ := pruneDecision_mark_data ND hn hmark
  have hhf : hashKey items true k = some "-" := rfl
  have htailf : k ∈ (dupList items true mid "-").tail := by
    rw [dupList_fast]
    exact mem_tail_of_sublist (dupFilter_sublist items false (idKeys items mid) h) htail
  have hres := pruneDecision_marks ND hf hm hmid hhf htailf
  simp [hres]

/-- C5: a message whose identifier header is absent is never marked for
removal by the prune pass and survives it, in every mode (fast or normal,
dry-run or not). -/
theorem claim5_no_identifier_never_removed (items : List MailEntry) (fast dry : Bool)
    (c c' : Counter) (items' : List MailEntry) (R : List (String × String))
    (e : MailEntry)
    (ND : (items.map MailEntry.key).Nodup)
    (he : e ∈ items) (hid : e.msg.messageId = none)
    (hdec : pruneDecision items fast = some R)
    (hrun : pruneFolder items fast dry c = some (c', items')) :
    alookup e.key R = none ∧ e ∈ items' := by
  have hnone : alookup e.key R = none := by
    cases halo : alookup e.key R with
    | none => rfl
    | some h =>
      exfalso
      obtain ⟨mid, m, hm, hmid, _, _⟩ := pruneDecision_mark_data ND hdec halo
      have hm0 := entryLookup_eq_some_of_mem items e ND he
      rw [hm] at hm0
      have hme : m = e.msg := Option.some.inj hm0
      rw [hme, hid] at hmid
      cases hmid
  refine ⟨hnone, ?_⟩
  obtain ⟨tr, hdec', hrem⟩ := pruneFolder_eq_some hrun
  have htr : tr = R := Option.some.inj (hdec'.symm.trans hdec)
  rw [htr] at hrem
  exact remove_frame he hnone hrem

/-- C4 witness: the subset relation at a concrete two-duplicate folder, at the
one key the normal-mode decision marks. -/
theorem claim4_witness :
    (alookup "k2" [("k2", "-")]).isSome :=
  claim4_normal_subset_fast [⟨"k1", "f1", msgA⟩, ⟨"k2", "f2", msgB⟩]
    [("k2", sha256hex "a")] [("k2", "-")] (by decide) (by decide) (by decide)
    "k2" (sha256hex "a") (by decide)

/-- C5 witness: a folder holding one identifier-less message; the decision is
empty and the message survives the executed pass. -/
theorem claim5_witness :
    alookup (⟨"k0", "f0", msgNoId⟩ : MailEntry).key
        ([] : List (String × String)) = none ∧
    (⟨"k0", "f0", msgNoId⟩ : MailEntry) ∈ [(⟨"k0", "f0", msgNoId⟩ : MailEntry)] :=
  claim5_no_identifier_never_removed [⟨"k0", "f0", msgNoId⟩] false false
    ⟨0, 0, 0, 0⟩ ⟨0, 0, 0, 1⟩ [⟨"k0", "f0", msgNoId⟩] [] ⟨"k0", "f0", msgNoId⟩
    (by decide) (List.mem_singleton.mpr rfl) rfl rfl rfl

/-- C6: with dry-run enabled, a completed prune pass (including flush) leaves
the mailbox store unchanged: same message set, same contents. -/
theorem claim6_dry_run_no_mutation (mbox : Maildir) (fast : Bool) (c c' : Counter)
    (mbox' : Maildir) (h : prune mbox fast true c = some (c', mbox')) :
    mbox' = mbox := by
  obtain ⟨hpf, hfn, hfn'⟩ := prune_eq_some h
  have hitems : mbox'.items = mbox.items := pruneFolder_dry_items hpf
  obtain ⟨i1, f1⟩ := mbox
  obtain ⟨i2, f2⟩ := mbox'
  simp only at hitems hfn hfn'
  rw [hitems, hfn, hfn']

/-- C6 witness: a dry-run prune over a folder with two identifier duplicates
(fast mode) returns the folder unchanged. -/
theorem claim6_witness :
    (⟨[⟨"k1", "f1", msgA⟩, ⟨"k2", "f2", msgB⟩], []⟩ : Maildir) =
      ⟨[⟨"k1", "f1", msgA⟩, ⟨"k2", "f2", msgB⟩], []⟩ :=
  claim6_dry_run_no_mutation ⟨[⟨"k1", "f1", msgA⟩, ⟨"k2", "f2", msgB⟩], []⟩ true
    ⟨0, 0, 0, 0⟩ ⟨1, 0, 1, 1⟩ ⟨[⟨"k1", "f1", msgA⟩, ⟨"k2", "f2", msgB⟩], []⟩ rfl

/-- C7, counterexample: a folder holding exactly one message (which lacks an
identifier) leaves the messages-seen counter at 0, not at the folder's
message count 1. -/
theorem claim7_counterexample :
    (pruneFolder [⟨"k0", "f0", msgNoId⟩] false false ⟨0, 0, 0, 0⟩).map
        (fun r => r.fst.messages) = some 0 ∧
      ([(⟨"k0", "f0", msgNoId⟩ : MailEntry)].length = 1) ∧ (0 : Int) ≠ (1 : Int) :=
  ⟨rfl, rfl, by decide⟩

/-- C7 (amended): for every folder it processes, the Pruning Executor updates
the messages-seen cell to the 32-bit wrap of its previous value plus
`len(messages)`: the number of *distinct identifier values* among the
folder's identifier-bearing messages, not the number of messages in the
folder. -/
theorem claim7_amended_counts_distinct_ids (items : List MailEntry) (fast dry : Bool)
    (c c' : Counter) (items' : List MailEntry)
    (hrun : pruneFolder items fast dry c = some (c', items')) :
    c'.messages = wrap32 (c.messages +
      Int.ofNat (items.filterMap (fun e => e.msg.messageId)).dedup.length) := by
  obtain ⟨tr, _, hrem⟩ := pruneFolder_eq_some hrun
  have h1 := (remove_other_counters hrem).1
  simp only [Counter.add_messages, Counter.add_mboxes] at h1
  rw [h1, buildGroups_length]

/-- C7 witness: the amended claim on a folder with two messages sharing one
identifier (messages-seen advances by 1, the number of distinct ids). -/
theorem claim7_amended_witness :
    (⟨1, 0, 1, 1⟩ : Counter).messages =
      wrap32 ((⟨0, 0, 0, 0⟩ : Counter).messages +
        Int.ofNat (([⟨"k1", "f1", msgA⟩, ⟨"k2", "f2", msgB⟩] : List MailEntry).filterMap
          (fun e => e.msg.messageId)).dedup.length) :=
  claim7_amended_counts_distinct_ids [⟨"k1", "f1", msgA⟩, ⟨"k2", "f2", msgB⟩]
    true false ⟨0, 0, 0, 0⟩ ⟨1, 0, 1, 1⟩ [⟨"k1", "f1", msgA⟩] rfl

/-- C8, counterexample: a duplicate whose Content-Length header is `"-5"`
drives the deleted-bytes counter from 0 down to −5 in one prune pass, so the
counters are not monotonically increasing as claimed. -/
theorem claim8_counterexample :
    (pruneFolder [⟨"k1", "f1", msgA⟩, ⟨"k2", "f2", msgNeg⟩] true false
        ⟨0, 0, 0, 0⟩).map (fun r => r.fst.del_bytes) = some (-5) ∧ (-5 : Int) < 0 :=
  ⟨rfl, by decide⟩

/-- C8 (amended): every counter update stores the 32-bit wrap of the old cell
value plus the increment; no counter decreases across a folder prune pass
provided every Removal Decision entry's declared content length is
non-negative and the pass stays inside the signed 32-bit range of the cells
(all four counters non-negative at entry, updated totals below 2^31).
Without the first proviso a negative declared Content-Length decreases the
deleted-bytes cell (see the counterexample); without the second the wrap
itself can drive a cell negative. -/
theorem claim8_amended_counters_monotone (items : List MailEntry) (fast dry : Bool)
    (c c' : Counter) (items' : List MailEntry) (R : List (String × String))
    (hdec : pruneDecision items fast = some R)
    (hnn : ∀ p ∈ R, 0 ≤ entryBytes items p.1)
    (hm0 : 0 ≤ c.del_messages) (hb0 : 0 ≤ c.del_bytes)
    (hms0 : 0 ≤ c.messages) (hmb0 : 0 ≤ c.mboxes)
    (hmcap : c.del_messages + Int.ofNat R.length < 2147483648)
    (hbcap : c.del_bytes + declaredBytes items R < 2147483648)
    (hmscap : c.messages + Int.ofNat (buildGroups items).length < 2147483648)
    (hmbcap : c.mboxes + 1 < 2147483648)
    (hrun : pruneFolder items fast dry c = some (c', items')) :
    c.del_messages ≤ c'.del_messages ∧ c.del_bytes ≤ c'.del_bytes ∧
      c.messages ≤ c'.messages ∧ c.mboxes ≤ c'.mboxes := by
  obtain ⟨tr, hdec', hrem⟩ := pruneFolder_eq_some hrun
  have htr : tr = R := Option.some.inj (hdec'.symm.trans hdec)
  rw [htr] at hrem
  have hc0dm : ((c.add_mboxes 1).add_messages
      (Int.ofNat (buildGroups items).length)).del_messages = c.del_messages := rfl
  have hc0db : ((c.add_mboxes 1).add_messages
      (Int.ofNat (buildGroups items).length)).del_bytes = c.del_bytes := rfl
  have hnd := pruneDecision_keys_nodup hdec
  have hdel := remove_mono_wrap hnd hnn (by rw [hc0dm]; exact hm0)
    (by rw [hc0db]; exact hb0) (by rw [hc0dm]; exact hmcap)
    (by rw [hc0db]; exact hbcap) hrem
  rw [hc0dm, hc0db] at hdel
  have hoth := remove_other_counters hrem
  simp only [Counter.add_messages, Counter.add_mboxes] at hoth
  refine ⟨hdel.1, hdel.2, ?_, ?_⟩
  · have hf : (0 : Int) ≤ Int.ofNat (buildGroups items).length := Int.ofNat_nonneg _
    rw [hoth.1, wrap32_eq_self (by omega) hmscap]
    omega
  · rw [hoth.2, wrap32_eq_self (by omega) hmbcap]
    omega

/-- C8 witness: the amended monotonicity at a concrete folder of two
Content-Length-7 duplicates, starting from the zero counter. -/
theorem claim8_amended_witness :
    (⟨0, 0, 0, 0⟩ : Counter).del_messages ≤ (⟨1, 7, 1, 1⟩ : Counter).del_messages ∧
    (⟨0, 0, 0, 0⟩ : Counter).del_bytes ≤ (⟨1, 7, 1, 1⟩ : Counter).del_bytes ∧
    (⟨0, 0, 0, 0⟩ : Counter).messages ≤ (⟨1, 7, 1, 1⟩ : Counter).messages ∧
    (⟨0, 0, 0, 0⟩ : Counter).mboxes ≤ (⟨1, 7, 1, 1⟩ : Counter).mboxes :=
  claim8_amended_counters_monotone [⟨"k1", "f1", msgLen7A⟩, ⟨"k2", "f2", msgLen7B⟩]
    true false ⟨0, 0, 0, 0⟩ ⟨1, 7, 1, 1⟩ [⟨"k1", "f1", msgLen7A⟩] [("k2", "-")]
    rfl
    (by
      intro p hp
      rcases List.mem_cons.mp hp with hh | hh
      · rw [hh]; decide
      · cases hh)
    (by decide) (by decide) (by decide) (by decide)
    (by decide) (by decide) (by decide) (by decide)
    rfl

/-- C9: for a message missing the sender header but carrying date, identifier
and subject, with no recorded parse defects, the Validation Executor emits
exactly one hard (Error) finding and zero soft (Warning) findings. -/
theorem claim9_missing_sender_findings (path : String) (e : MailEntry)
    (hs : e.msg.sender = none) (hd : e.msg.date.isSome = true)
    (hi : e.msg.messageId.isSome = true) (hsub : e.msg.subject.isSome = true)
    (hdef : e.msg.defects = []) :
    ((findingsFor path e).countP Finding.isHard) = 1 ∧
    ((findingsFor path e).countP Finding.isSoft) = 0 := by
  simp [findingsFor, hs, hd, hi, hsub, hdef, Finding.isHard, Finding.isSoft,
    List.countP_cons, List.countP_nil]

/-- C9 witness: the finding counts at a concrete sender-less message. -/
theorem claim9_witness :
    ((findingsFor "p" ⟨"k9", "f9", msgNoSender⟩).countP Finding.isHard) = 1 ∧
    ((findingsFor "p" ⟨"k9", "f9", msgNoSender⟩).countP Finding.isSoft) = 0 :=
  claim9_missing_sender_findings "p" ⟨"k9", "f9", msgNoSender⟩ rfl rfl rfl rfl rfl

/-- C10: over one folder, a dry-run prune pass and a real prune pass from the
same starting counter produce *identical* final counters; and from any
representable (32-bit) starting value, the deleted-messages cell ends at the
wrap of start plus one per Removal Decision entry and the deleted-bytes cell
at the wrap of start plus each entry's declared content length, even though
the dry run deletes nothing. -/
theorem claim10_dry_run_same_accounting (items : List MailEntry) (fast : Bool)
    (c c1 c2 : Counter) (items1 items2 : List MailEntry)
    (hdmlo : -2147483648 ≤ c.del_messages) (hdmhi : c.del_messages < 2147483648)
    (hdblo : -2147483648 ≤ c.del_bytes) (hdbhi : c.del_bytes < 2147483648)
    (hdry : pruneFolder items fast true c = some (c1, items1))
    (hwet : pruneFolder items fast false c = some (c2, items2)) :
    c1 = c2 ∧
      ∀ R, pruneDecision items fast = some R →
        c1.del_messages = wrap32 (c.del_messages + Int.ofNat R.length) ∧
        c1.del_bytes = wrap32 (c.del_bytes + declaredBytes items R) := by
  obtain ⟨trd, hdecd, hremd⟩ := pruneFolder_eq_some hdry
  obtain ⟨trw, hdecw, hremw⟩ := pruneFolder_eq_some hwet
  have htr : trw = trd := Option.some.inj (hdecw.symm.trans hdecd)
  rw [htr] at hremw
  have hnd := pruneDecision_keys_nodup hdecd
  have heq := @remove_counter_eq trd items items
    ((c.add_mboxes 1).add_messages (Int.ofNat (buildGroups items).length)) true false
    hnd (fun k _ => rfl)
  rw [hremd, hremw] at heq
  simp only [Option.map_some'] at heq
  have hc12 : c1 = c2 := Option.some.inj heq
  have hc0dm : ((c.add_mboxes 1).add_messages
      (Int.ofNat (buildGroups items).length)).del_messages = c.del_messages := rfl
  have hc0db : ((c.add_mboxes 1).add_messages
      (Int.ofNat (buildGroups items).length)).del_bytes = c.del_bytes := rfl
  refine ⟨hc12, ?_⟩
  intro R hR
  have hRtr : R = trd := Option.some.inj (hR.symm.trans hdecd)
  subst hRtr
  constructor
  · have hm := remove_del_messages (by rw [hc0dm]; exact hdmlo)
      (by rw [hc0dm]; exact hdmhi) hremd
    rw [hc0dm] at hm
    exact hm
  · have hb := remove_dry_bytes (by rw [hc0db]; exact hdblo)
      (by rw [hc0db]; exact hdbhi) hremd
    rw [hc0db] at hb
    exact hb

/-- C10 witness: dry and wet folder passes on two Content-Length-7 duplicates
agree on all counters, and account 1 message / 7 bytes for the single
decision entry (within range, the wrap is the plain sum). -/
theorem claim10_witness :
    (⟨1, 7, 1, 1⟩ : Counter) = (⟨1, 7, 1, 1⟩ : Counter) ∧
      ∀ R, pruneDecision [⟨"k1", "f1", msgLen7A⟩, ⟨"k2", "f2", msgLen7B⟩] true =
          some R →
        (⟨1, 7, 1, 1⟩ : Counter).del_messages =
            wrap32 ((⟨0, 0, 0, 0⟩ : Counter).del_messages + Int.ofNat R.length) ∧
        (⟨1, 7, 1, 1⟩ : Counter).del_bytes =
            wrap32 ((⟨0, 0, 0, 0⟩ : Counter).del_bytes +
              declaredBytes [⟨"k1", "f1", msgLen7A⟩, ⟨"k2", "f2", msgLen7B⟩] R) :=
  claim10_dry_run_same_accounting [⟨"k1", "f1", msgLen7A⟩, ⟨"k2", "f2", msgLen7B⟩]
    true ⟨0, 0, 0, 0⟩ ⟨1, 7, 1, 1⟩ ⟨1, 7, 1, 1⟩
    [⟨"k1", "f1", msgLen7A⟩, ⟨"k2", "f2", msgLen7B⟩] [⟨"k1", "f1", msgLen7A⟩]
    (by decide) (by decide) (by decide) (by decide)
    rfl rfl

end EatMyMail
